import Mathlib

/-!
Shallow embedding of the eml-to-html conversion scripts
(`eml_to_html_include_inline_image.py`, `eml_to_html_only_text.py`,
`generate_index.py`) and proofs about them.

Text is modelled as `List Char`.  Each regular-expression pass of the source
(`re.sub`) is modelled as an explicit left-to-right character scanner with the
matching semantics of the concrete pattern involved: at every position the
scanner attempts the pattern; on success it emits the replacement and resumes
after the match, on failure it emits one character and advances, exactly as
`re.sub` does for the patterns at hand (none of which requires backtracking
beyond what the individual matchers encode).
-/

namespace EmlSpec

/-- Whitespace class of the source's regexes (Python `\s`) and of
Python `str.strip()`, restricted to the ASCII range. -/
def pyIsSpace (c : Char) : Bool :=
  c == ' ' || c == '\t' || c == '\n' || c == '\r' || c == '\x0b' || c == '\x0c'

/-- ASCII lower-casing of a character (the effect of `re.IGNORECASE`
and of Python `str.lower()` on ASCII text). -/
def lowerChar (c : Char) : Char :=
  if 'A' ≤ c ∧ c ≤ 'Z' then Char.ofNat (c.toNat + 32) else c

/-- Match the literal `pat` case-insensitively at the head of `l` (the effect
of `re.IGNORECASE` on a literal); returns the text remaining after `pat`. -/
def ciDrop : List Char → List Char → Option (List Char)
  | [], l => some l
  | _ :: _, [] => none
  | p :: ps, c :: cs => if lowerChar c = lowerChar p then ciDrop ps cs else none

/-- Python `sub in s` on text (substring containment). -/
def containsSub (sub l : List Char) : Bool :=
  l.tails.any (fun t => sub.isPrefixOf t)

/-- Python `str.strip()` (ASCII whitespace). -/
def pyStrip (l : List Char) : List Char :=
  ((l.dropWhile pyIsSpace).reverse.dropWhile pyIsSpace).reverse

/-- One pass of `re.sub` with a replacement function: `try?` attempts a match
at the current position, returning the emitted text and the input remaining
after the match; on failure the scanner emits one character and advances.
Structured on fuel so that applications compute by `decide`. -/
def scanSubF (try? : List Char → Option (List Char × List Char)) :
    Nat → List Char → List Char
  | 0, l => l
  | _ + 1, [] => []
  | fuel + 1, c :: cs =>
    match try? (c :: cs) with
    | some (em, rest) => em ++ scanSubF try? fuel rest
    | none => c :: scanSubF try? fuel cs

/-- One full pass of `re.sub pattern repl text` over `l`. -/
def scanSub (try? : List Char → Option (List Char × List Char))
    (l : List Char) : List Char :=
  scanSubF try? l.length l

/-- A matcher is regressive when every match consumes at least one character. -/
def Regressive (try? : List Char → Option (List Char × List Char)) : Prop :=
  ∀ l em rest, try? l = some (em, rest) → rest.length < l.length

/-- Matcher for the pattern `\s+`, replaced by a single space
(first cleanup step of `anonymize_content`). -/
def tryWsRun (l : List Char) : Option (List Char × List Char) :=
  match l with
  | c :: cs => if pyIsSpace c then some ([' '], cs.dropWhile pyIsSpace) else none
  | [] => none

/-- Matcher for an empty bracket pair `open𝑐 \s* close𝑐`, replaced by the
empty string; instantiated at `<\s*>` and `\(\s*\)`
(cleanup steps two and three of `anonymize_content`). -/
def tryEmptyPair (o k : Char) (l : List Char) : Option (List Char × List Char) :=
  match l with
  | c :: cs =>
    let r := cs.dropWhile pyIsSpace
    if c = o ∧ r.head? = some k then some ([], r.tail) else none
  | [] => none

/-- Embedding of `anonymize_content` (the function is identical in both
conversion scripts).  Each redaction rule `(pattern, replacement)` from the
external `patterns` module acts through `re.sub` as a text-to-text
substitution, so the rule list is modelled as a list of substitution
functions applied in order. -/
def anonymize_content (rules : List (List Char → List Char))
    (text : List Char) : List Char :=
  if text = [] then text
  else
    let t := rules.foldl (fun acc f => f acc) text
    let t := scanSub tryWsRun t
    let t := scanSub (tryEmptyPair '<' '>') t
    let t := scanSub (tryEmptyPair '(' ')') t
    pyStrip t

/-- Lookup in a Python `dict` with text keys, modelled as an association
list with unique keys in insertion order. -/
def dlookup (d : List (List Char × List Char)) (k : List Char) :
    Option (List Char) :=
  match d with
  | [] => none
  | (k', v) :: rest => if k = k' then some v else dlookup rest k

/-- Update of a Python `dict`: an existing key is overwritten in place,
a new key is appended (insertion order is preserved). -/
def dinsert (d : List (List Char × List Char)) (k v : List Char) :
    List (List Char × List Char) :=
  match d with
  | [] => [(k, v)]
  | (k', v') :: rest =>
    if k = k' then (k', v) :: rest else (k', v') :: dinsert rest k v

/-- The base64 alphabet used by `base64.b64encode`. -/
def b64Alphabet : List Char :=
  ("ABCDEFGHIJKLMNOPQRSTUVWXYZabcdefghijklmnopqrstuvwxyz0123456789+/").toList

/-- Digit of the base64 alphabet. -/
def b64Char (n : Nat) : Char := b64Alphabet.getD n 'A'

/-- Standard base64 encoding of a byte sequence
(`base64.b64encode(image_data).decode('utf-8')`). -/
def base64Encode : List Nat → List Char
  | [] => []
  | [a] => [b64Char (a / 4), b64Char (a % 4 * 16), '=', '=']
  | [a, b] => [b64Char (a / 4), b64Char (a % 4 * 16 + b / 16),
      b64Char (b % 16 * 4), '=']
  | a :: b :: c :: rest =>
    b64Char (a / 4) :: b64Char (a % 4 * 16 + b / 16) ::
      b64Char (b % 16 * 4 + c / 64) :: b64Char (c % 64) :: base64Encode rest

/-- One node of the parsed MIME tree, carrying exactly the attributes the
source reads: `get_content_type()`, `str(part.get("Content-Disposition", ""))`,
`part.get("Content-ID", "")`, `get_filename()`, and
`get_payload(decode=True)` — `none` models a `None` payload. -/
structure Part where
  content_type : List Char
  content_disposition : List Char
  content_id : List Char
  filename : Option (List Char)
  payload : Option (List Nat)

/-- A parsed message: `is_multipart()` plus the sequence of parts yielded by
`msg.walk()` (depth-first document order, containers included).  For a
non-multipart message the walk yields exactly the message itself, so its own
content type and payload are those of the single part of the walk. -/
structure Message where
  multipart : Bool
  parts : List Part

/-- Python `'<'`/`'>'` detection for `Content-ID.strip('<>')`. -/
def isAngle (c : Char) : Bool := c == '<' || c == '>'

/-- Python `str.strip('<>')`: remove all leading and trailing angle
brackets. -/
def stripAngles (l : List Char) : List Char :=
  ((l.dropWhile isAngle).reverse.dropWhile isAngle).reverse

/-- The data URI built for an image part:
`f"data:{content_type};base64,{image_base64}"`. -/
def dataUri (ct : List Char) (bs : List Nat) : List Char :=
  ("data:").toList ++ ct ++ (";base64,").toList ++ base64Encode bs

/-- One loop iteration of `extract_images_from_email`: an image part with a
non-empty decoded payload registers its data URI under `cid:<id>` and `<id>`
(angle brackets stripped) when it has a non-empty Content-ID, and under its
filename when it has a non-empty one. -/
def imageStep (images : List (List Char × List Char)) (p : Part) :
    List (List Char × List Char) :=
  if ("image/").toList.isPrefixOf p.content_type then
    match p.payload with
    | some bs =>
      if bs ≠ [] then
        let uri := dataUri p.content_type bs
        let images₁ :=
          if p.content_id ≠ [] then
            let cid := stripAngles p.content_id
            dinsert (dinsert images (("cid:").toList ++ cid) uri) cid uri
          else images
        match p.filename with
        | some fn => if fn ≠ [] then dinsert images₁ fn uri else images₁
        | none => images₁
      else images
    | none => images
  else images

/-- Embedding of `extract_images_from_email`. -/
def extract_images_from_email (parts : List Part) :
    List (List Char × List Char) :=
  parts.foldl imageStep []

/-- The character class `[^"'\s>]` of the CID reference patterns. -/
def cidAllowed (c : Char) : Bool :=
  !(c == '"' || c == '\'' || c == '>' || pyIsSpace c)

/-- Consume one optional quote character (the greedy `["\']?`). -/
def optQuote (l : List Char) : List Char :=
  match l with
  | c :: cs => if c = '"' ∨ c = '\'' then cs else l
  | [] => l

/-- Matcher for one CID-reference pattern of `replace_cid_references`,
`ATTR=["\']?cid:([^"\'\s>]+)["\']?` with `re.IGNORECASE` (`ATTR` is `src`,
`href` or `background`), combined with the source's `replace_match`
replacement: if the captured id is found in the image index (tried first with
the `cid:` prefix, then bare), the whole match is replaced by
`ATTR="<data uri>"` (the template spells `ATTR` in lower case); otherwise the
matched text is emitted unchanged. -/
def tryCid (attr : List Char) (images : List (List Char × List Char))
    (l : List Char) : Option (List Char × List Char) :=
  match ciDrop (attr ++ ['=']) l with
  | none => none
  | some l₁ =>
    let l₂ := optQuote l₁
    match ciDrop (("cid:").toList) l₂ with
    | none => none
    | some l₃ =>
      let cid := l₃.takeWhile cidAllowed
      if cid = [] then none
      else
        let l₄ := l₃.drop cid.length
        let l₅ := optQuote l₄
        let matched := l.take (l.length - l₅.length)
        let em :=
          match dlookup images ((("cid:").toList) ++ cid) with
          | some uri => attr ++ ('=' :: '"' :: (uri ++ ['"']))
          | none =>
            match dlookup images cid with
            | some uri => attr ++ ('=' :: '"' :: (uri ++ ['"']))
            | none => matched
        some (em, l₅)

/-- The character class `[%px]` under `re.IGNORECASE`. -/
def isPxChar (c : Char) : Bool :=
  c == '%' || c == 'p' || c == 'x' || c == 'P' || c == 'X'

/-- Parse `\s+WORD=["\']?\d+[%px]*["\']?` at the head of `s` (group 2 of the
dimension-stripping patterns of `clean_image_dimensions`); returns the text
remaining after the group. -/
def parseDimAttr (word : List Char) (s : List Char) : Option (List Char) :=
  match s with
  | c :: _ =>
    if pyIsSpace c then
      let s₁ := s.dropWhile pyIsSpace
      match ciDrop (word ++ ['=']) s₁ with
      | none => none
      | some s₂ =>
        let s₃ := optQuote s₂
        let ds := s₃.takeWhile Char.isDigit
        if ds = [] then none
        else
          let s₄ := s₃.drop ds.length
          let s₅ := s₄.dropWhile isPxChar
          some (optQuote s₅)
    else none
  | [] => none

/-- Search inside an `<img` tag window for the earliest split point at which
group 2 parses; the characters skipped over form the lazy group 1 (they must
not contain `>`).  Returns `(group 1, text remaining after group 2)`. -/
def findDim (word : List Char) : List Char → Option (List Char × List Char)
  | [] => none
  | c :: cs =>
    if c = '>' then none
    else
      match parseDimAttr word (c :: cs) with
      | some rest => some ([], rest)
      | none =>
        match findDim word cs with
        | some (g₁, rest) => some (c :: g₁, rest)
        | none => none

/-- Matcher for `<img([^>]*?)(\s+WORD=["\']?\d+[%px]*["\']?)([^>]*?)>` with
`re.IGNORECASE` and replacement `<img\1\3>` (`WORD` is `width` or `height`):
lazy group 1 takes the shortest non-`>` run after `<img` that lets group 2
parse, lazy group 3 then runs to the first `>`.  The replacement drops
group 2 (the template spells `<img` in lower case). -/
def tryDim (word : List Char) (l : List Char) : Option (List Char × List Char) :=
  match ciDrop (("<img").toList) l with
  | none => none
  | some l₁ =>
    match findDim word l₁ with
    | none => none
    | some (g₁, r₂) =>
      let g₃ := r₂.takeWhile (fun c => c != '>')
      match r₂.drop g₃.length with
      | '>' :: rest => some ((("<img").toList) ++ g₁ ++ g₃ ++ ['>'], rest)
      | _ => none

/-- Match `style=["\']([^"\']*)["\']` at the head of `l`
(with `re.IGNORECASE`); returns the captured group. -/
def tryStyleCi (l : List Char) : Option (List Char) :=
  match ciDrop (("style=").toList) l with
  | none => none
  | some l₁ =>
    match l₁ with
    | q :: rest =>
      if q = '"' ∨ q = '\'' then
        let g := rest.takeWhile (fun c => !(c == '"' || c == '\''))
        if rest.drop g.length = [] then none else some g
      else none
    | [] => none

/-- Leftmost match of `re.search(r'style=["\']([^"\']*)["\']', ...)`:
the captured style text of the first style attribute, if any. -/
def findStyleGroup : List Char → Option (List Char)
  | [] => none
  | c :: cs =>
    match tryStyleCi (c :: cs) with
    | some g => some g
    | none => findStyleGroup cs

/-- Matcher for `WORD\s*:\s*[^;]+;?` with `re.IGNORECASE`, replaced by the
empty string (removal of one `width`/`height` declaration from a style
value).  The `\s*` before `[^;]+` is absorbed into `[^;]+` by backtracking,
so the declaration body is the maximal non-`;` run, which must be
non-empty. -/
def tryDecl (word : List Char) (l : List Char) : Option (List Char × List Char) :=
  match ciDrop word l with
  | none => none
  | some l₁ =>
    let l₂ := l₁.dropWhile pyIsSpace
    match l₂ with
    | ':' :: r =>
      let body := r.takeWhile (fun c => c != ';')
      if body = [] then none
      else
        let rest := r.drop body.length
        let rest₁ :=
          match rest with
          | ';' :: rr => rr
          | _ => rest
        some ([], rest₁)
    | _ => none

/-- Python `str.rstrip(';')`. -/
def rstripSemis (l : List Char) : List Char :=
  (l.reverse.dropWhile (fun c => c == ';')).reverse

/-- Matcher for `style=["\'][^"\']*["\']` with no flags (case-sensitive),
with a fixed replacement `repl` (used by `clean_style` to rewrite the style
attribute with its cleaned value). -/
def tryStyleLit (repl : List Char) (l : List Char) :
    Option (List Char × List Char) :=
  if ("style=").toList.isPrefixOf l then
    let l₁ := l.drop (("style=").toList.length)
    match l₁ with
    | q :: rest =>
      if q = '"' ∨ q = '\'' then
        let g := rest.takeWhile (fun c => !(c == '"' || c == '\''))
        match rest.drop g.length with
        | _ :: after => some (repl, after)
        | [] => none
      else none
    | [] => none
  else none

/-- Matcher for `\s+style=["\'][^"\']*["\']` (case-sensitive), replaced by
the empty string (removal of a style attribute that became empty). -/
def tryWsStyle (l : List Char) : Option (List Char × List Char) :=
  match l with
  | c :: _ =>
    if pyIsSpace c then
      match tryStyleLit [] (l.dropWhile pyIsSpace) with
      | some (_, after) => some ([], after)
      | none => none
    else none
  | [] => none

/-- Embedding of the `clean_style` replacement function inside
`clean_image_dimensions`: on the text of one matched `<img...>` tag, find the
first `style` attribute value, strip `width`/`height` declarations from it,
and either rewrite every style span with the cleaned value or, when the
cleaned value is empty, remove the whitespace-preceded style attribute. -/
def cleanStyle (tag : List Char) : List Char :=
  match findStyleGroup tag with
  | none => tag
  | some style =>
    let s₁ := scanSub (tryDecl (("width").toList)) style
    let s₂ := scanSub (tryDecl (("height").toList)) s₁
    let s₃ := rstripSemis (pyStrip s₂)
    if s₃ ≠ [] then
      scanSub (tryStyleLit ((("style=").toList) ++ '"' :: (s₃ ++ ['"']))) tag
    else
      scanSub tryWsStyle tag

/-- Matcher for `<img[^>]+>` with `re.IGNORECASE`, whose replacement is
`clean_style` applied to the matched tag text. -/
def tryImgTag (l : List Char) : Option (List Char × List Char) :=
  match ciDrop (("<img").toList) l with
  | none => none
  | some l₁ =>
    let inner := l₁.takeWhile (fun c => c != '>')
    if inner = [] then none
    else
      match l₁.drop inner.length with
      | '>' :: rest => some (cleanStyle (l.take (inner.length + 5)), rest)
      | _ => none

/-- Embedding of `clean_image_dimensions`: one `re.sub` pass removing a
width attribute from `<img>` tags, one removing a height attribute, then the
style-cleaning pass. -/
def clean_image_dimensions (html_content : List Char) : List Char :=
  let h₁ := scanSub (tryDim (("width").toList)) html_content
  let h₂ := scanSub (tryDim (("height").toList)) h₁
  scanSub tryImgTag h₂

/-- Embedding of `replace_cid_references`: rewrite `src`, `href` and
`background` CID references through the image index, then (unless
`preserve_dimensions`) clean image dimensions. -/
def replace_cid_references (html_content : List Char)
    (images : List (List Char × List Char)) (preserve_dimensions : Bool) :
    List Char :=
  if html_content = [] ∨ images = [] then html_content
  else
    let h₁ := scanSub (tryCid (("src").toList) images) html_content
    let h₂ := scanSub (tryCid (("href").toList) images) h₁
    let h₃ := scanSub (tryCid (("background").toList) images) h₂
    if preserve_dimensions then h₃ else clean_image_dimensions h₃

/-- The Unicode replacement character U+FFFD. -/
def replChar : Char := Char.ofNat 0xFFFD

/-- Whether a byte is a UTF-8 continuation byte. -/
def isCont (b : Nat) : Bool := 0x80 ≤ b && b ≤ 0xBF

/-- Fueled model of `bytes.decode('utf-8', errors='replace')`: decode UTF-8,
emitting U+FFFD for invalid bytes (the model replaces one byte at a time on
malformed sequences; no claim depends on the malformed cases). -/
def decodeUtf8F : Nat → List Nat → List Char
  | 0, _ => []
  | _ + 1, [] => []
  | fuel + 1, b :: bs =>
    if b < 0x80 then Char.ofNat b :: decodeUtf8F fuel bs
    else if 0xC2 ≤ b && b ≤ 0xDF then
      match bs with
      | b₂ :: bs₂ =>
        if isCont b₂ then
          Char.ofNat ((b - 0xC0) * 64 + (b₂ - 0x80)) :: decodeUtf8F fuel bs₂
        else replChar :: decodeUtf8F fuel bs
      | [] => [replChar]
    else if 0xE0 ≤ b && b ≤ 0xEF then
      match bs with
      | b₂ :: b₃ :: bs₃ =>
        if isCont b₂ && isCont b₃ then
          let n := (b - 0xE0) * 4096 + (b₂ - 0x80) * 64 + (b₃ - 0x80)
          if 0x800 ≤ n && !(0xD800 ≤ n && n ≤ 0xDFFF) then
            Char.ofNat n :: decodeUtf8F fuel bs₃
          else replChar :: decodeUtf8F fuel bs
        else replChar :: decodeUtf8F fuel bs
      | _ => replChar :: decodeUtf8F fuel bs
    else if 0xF0 ≤ b && b ≤ 0xF4 then
      match bs with
      | b₂ :: b₃ :: b₄ :: bs₄ =>
        if isCont b₂ && isCont b₃ && isCont b₄ then
          let n := (b - 0xF0) * 262144 + (b₂ - 0x80) * 4096 +
            (b₃ - 0x80) * 64 + (b₄ - 0x80)
          if 0x10000 ≤ n && n ≤ 0x10FFFF then
            Char.ofNat n :: decodeUtf8F fuel bs₄
          else replChar :: decodeUtf8F fuel bs
        else replChar :: decodeUtf8F fuel bs
      | _ => replChar :: decodeUtf8F fuel bs
    else replChar :: decodeUtf8F fuel bs

/-- Model of `bytes.decode('utf-8', errors='replace')`. -/
def decodeUtf8Replace (bs : List Nat) : List Char := decodeUtf8F bs.length bs

/-- Replacement text of one character under Python `html.escape`
(default `quote=True`). -/
def escapeChar (c : Char) : List Char :=
  if c = '&' then ("&amp;").toList
  else if c = '<' then ("&lt;").toList
  else if c = '>' then ("&gt;").toList
  else if c = '"' then ("&quot;").toList
  else if c = '\'' then ("&#x27;").toList
  else [c]

/-- Python `html.escape` (character-wise; equivalent to the source's
sequential `str.replace` calls because `&` is replaced first). -/
def escapeHtml (l : List Char) : List Char := (l.map escapeChar).flatten

/-- The skip test of the inline-image variant's multipart loop:
`"attachment" in content_disposition and not content_type.startswith("image/")`. -/
def skipInline (p : Part) : Bool :=
  containsSub (("attachment").toList) p.content_disposition &&
    !(("image/").toList.isPrefixOf p.content_type)

/-- The multipart loop of the inline-image variant's `extract_email_content`:
`hb` and `pb` accumulate the `html_body` and `plain_body` locals (a part
whose payload is `None` raises inside the `try` and is skipped by the
`except: continue`). -/
def inlineLoop (rules : List (List Char → List Char))
    (images : List (List Char × List Char)) (pd : Bool) :
    List Char → List Char → List Part → List Char × List Char
  | hb, pb, [] => (hb, pb)
  | hb, pb, p :: rest =>
    if skipInline p then inlineLoop rules images pd hb pb rest
    else if p.content_type = ("text/html").toList then
      match p.payload with
      | some bs =>
        inlineLoop rules images pd
          (anonymize_content rules
            (replace_cid_references (decodeUtf8Replace bs) images pd)) pb rest
      | none => inlineLoop rules images pd hb pb rest
    else if p.content_type = ("text/plain").toList ∧ pb = [] then
      match p.payload with
      | some bs =>
        inlineLoop rules images pd hb
          (anonymize_content rules (decodeUtf8Replace bs)) rest
      | none => inlineLoop rules images pd hb pb rest
    else inlineLoop rules images pd hb pb rest

/-- The single part of a non-multipart message (`msg.walk()` yields exactly
the message itself; a defensive default is supplied for an empty walk). -/
def getSelf (m : Message) : Part :=
  m.parts.headD ⟨("text/plain").toList, [], [], none, none⟩

/-- Embedding of `extract_email_content` from
`eml_to_html_include_inline_image.py`. -/
def extract_email_content_inline (rules : List (List Char → List Char))
    (m : Message) (preserve_dimensions : Bool) : List Char :=
  let images := extract_images_from_email m.parts
  if m.multipart then
    let r := inlineLoop rules images preserve_dimensions [] [] m.parts
    if r.1 ≠ [] then r.1
    else if r.2 ≠ [] then
      ("<pre>").toList ++ escapeHtml r.2 ++ ("</pre>").toList
    else ("<p>No readable content found</p>").toList
  else
    let p := getSelf m
    match p.payload with
    | none => ("<p>Could not decode message content</p>").toList
    | some bs =>
      let content := decodeUtf8Replace bs
      let content₁ :=
        if p.content_type = ("text/html").toList then
          replace_cid_references content images preserve_dimensions
        else content
      let content₂ := anonymize_content rules content₁
      if p.content_type = ("text/html").toList then content₂
      else ("<pre>").toList ++ escapeHtml content₂ ++ ("</pre>").toList

/-- The multipart loop of the text-only variant's `extract_email_content`:
returns `(body, True)` immediately at the first decodable HTML part;
otherwise `body` accumulates the first decodable plain body, already wrapped
in `<pre>`. -/
def textLoop (rules : List (List Char → List Char)) :
    List Char → List Part → List Char × Bool
  | body, [] => (body, false)
  | body, p :: rest =>
    if containsSub (("attachment").toList) p.content_disposition then
      textLoop rules body rest
    else if p.content_type = ("text/html").toList then
      match p.payload with
      | some bs => (anonymize_content rules (decodeUtf8Replace bs), true)
      | none => textLoop rules body rest
    else if p.content_type = ("text/plain").toList ∧ body = [] then
      match p.payload with
      | some bs =>
        textLoop rules
          (("<pre>").toList ++
            escapeHtml (anonymize_content rules (decodeUtf8Replace bs)) ++
            ("</pre>").toList) rest
      | none => textLoop rules body rest
    else textLoop rules body rest

/-- Embedding of `extract_email_content` from `eml_to_html_only_text.py`
(returns the body together with its is-HTML flag). -/
def extract_email_content_text (rules : List (List Char → List Char))
    (m : Message) : List Char × Bool :=
  if m.multipart then textLoop rules [] m.parts
  else
    let p := getSelf m
    match p.payload with
    | none => (("<p>Could not decode message content</p>").toList, false)
    | some bs =>
      let content := anonymize_content rules (decodeUtf8Replace bs)
      if p.content_type = ("text/html").toList then (content, false)
      else (("<pre>").toList ++ escapeHtml content ++ ("</pre>").toList, false)

/-- One attachment descriptor: filename, content type, decoded byte size. -/
structure AttachmentInfo where
  filename : List Char
  type : List Char
  size : Nat
  deriving DecidableEq

/-- Embedding of `extract_attachments_info`: walk the parts and list every
explicit attachment that has a (truthy) filename, unless it is an image also
marked inline; the size is the decoded payload's byte length, `0` for a
`None` payload. -/
def extract_attachments_info : List Part → List AttachmentInfo
  | [] => []
  | p :: rest =>
    let tail := extract_attachments_info rest
    if containsSub (("attachment").toList) p.content_disposition then
      match p.filename with
      | some fn =>
        if fn ≠ [] then
          if !(("image/").toList.isPrefixOf p.content_type) ||
              !(containsSub (("inline").toList) p.content_disposition) then
            { filename := fn, type := p.content_type,
              size := match p.payload with
                | some bs => bs.length
                | none => 0 } :: tail
          else tail
        else tail
      | none => tail
    else tail

/-- Outcome of converting one `.eml` file, as observed by the batch loop:
`eml_to_html` wraps its whole body in `try/except Exception` and returns
`(True, output_path)` on success or `(False, str(e))` when anything raised,
so per-file conversion is modelled by this outcome. -/
inductive ConvOutcome
  | ok (output_file : List Char)
  | err (msg : List Char)
  deriving DecidableEq

/-- The `(success, result)` pair returned by `eml_to_html`. -/
def eml_to_html_result : ConvOutcome → Bool × List Char
  | .ok f => (true, f)
  | .err m => (false, m)

/-- The per-file loop of `convert_all_eml_files`: accumulates
`success_count` and the `failed_files` summary in encounter order. -/
def convertLoop (sc : Nat) (failed : List (List Char × List Char)) :
    List (List Char × ConvOutcome) → Nat × List (List Char × List Char)
  | [] => (sc, failed)
  | (name, o) :: rest =>
    let r := eml_to_html_result o
    if r.1 then convertLoop (sc + 1) failed rest
    else convertLoop sc (failed ++ [(name, r.2)]) rest

/-- Embedding of `convert_all_eml_files`: select the files whose name ends in
`.eml` case-insensitively (the recursive `os.walk` traversal is abstracted to
the flat list of file names found, each paired with its conversion outcome),
convert each, and report the success count and failure summary. -/
def convert_all_eml_files (files : List (List Char × ConvOutcome)) :
    Nat × List (List Char × List Char) :=
  let emls := files.filter
    (fun f => ((".eml").toList).isSuffixOf (f.1.map lowerChar))
  convertLoop 0 [] emls

/-- One entry of the index table (the dictionary built by
`extract_email_info`; the `from` field is called `sender` here because
`from` is reserved). -/
structure EmailInfo where
  filename : List Char
  subject : List Char
  sender : List Char
  date : List Char
  size_formatted : List Char

/-- Python string comparison (code-point lexicographic) as a Boolean
less-or-equal. -/
def lexLe : List Char → List Char → Bool
  | [], _ => true
  | _ :: _, [] => false
  | a :: as, b :: bs =>
    if a.toNat < b.toNat then true
    else if b.toNat < a.toNat then false
    else lexLe as bs

/-- The sort key of `html_files.sort(key=lambda x: x['subject'].lower())`. -/
def subjectKey (e : EmailInfo) : List Char := e.subject.map lowerChar

/-- The row order produced by `generate_index_html`:
`html_files.sort(key=lambda x: x['subject'].lower())` is a stable ascending
sort, modelled by stable insertion sort (stable sorts agree on output). -/
def generate_index_rows (html_files : List EmailInfo) : List EmailInfo :=
  List.insertionSort (fun a b => lexLe (subjectKey a) (subjectKey b)) html_files

/-- Whether the text contains an occurrence of `<img` (case-insensitive) —
the trigger of every pattern of `clean_image_dimensions`. -/
def hasImgTagCi (l : List Char) : Bool :=
  l.tails.any (fun t => (ciDrop (("<img").toList) t).isSome)

/-- The keys one part writes into the image index during
`extract_images_from_email` (used to state when a later part shadows an
earlier one). -/
def registersKey (p : Part) (key : List Char) : Prop :=
  ("image/").toList.isPrefixOf p.content_type = true ∧
  (∃ bs, p.payload = some bs ∧ bs ≠ []) ∧
  ((p.content_id ≠ [] ∧
      (key = ("cid:").toList ++ stripAngles p.content_id ∨
        key = stripAngles p.content_id)) ∨
    (p.filename = some key ∧ key ≠ []))

/-- The processed content the inline-image variant's multipart loop derives
from one part when it takes the `text/html` branch (used to characterise the
loop): the decoded payload, CID-rewritten and anonymized. -/
def htmlContent (rules : List (List Char → List Char))
    (images : List (List Char × List Char)) (pd : Bool) (p : Part) :
    Option (List Char) :=
  if skipInline p = false ∧ p.content_type = ("text/html").toList then
    p.payload.map (fun bs =>
      anonymize_content rules
        (replace_cid_references (decodeUtf8Replace bs) images pd))
  else none

/-- The processed content the inline-image variant's multipart loop derives
from one part when it takes the `text/plain` branch. -/
def plainContent (rules : List (List Char → List Char)) (p : Part) :
    Option (List Char) :=
  if skipInline p = false ∧ p.content_type = ("text/plain").toList then
    p.payload.map (fun bs => anonymize_content rules (decodeUtf8Replace bs))
  else none

/-- A matcher is `>`-local when, on any text made of a `>`-free block followed
by `>`, a match at the block's start either fails regardless of what follows
the `>` or succeeds with an emission depending only on the block, consuming
exactly through the `>`.  All three matchers of `clean_image_dimensions` are
`>`-local, which confines every match to one `<...>` tag window. -/
def GtLocal (try? : List Char → Option (List Char × List Char)) : Prop :=
  ∀ b : List Char, b.all (fun c => c != '>') = true →
    (∀ R, try? (b ++ '>' :: R) = none) ∨
    (∃ em, ∀ R, try? (b ++ '>' :: R) = some (em, R))

/-- The body (text before the closing `>`) of the tag obtained by running one
substitution pass on the tag `b ++ ['>']` standing alone. -/
def tagBody (try? : List Char → Option (List Char × List Char))
    (b : List Char) : List Char :=
  (scanSub try? (b ++ ['>'])).dropLast

/-- A segment of an HTML string for the CID-rewriting specification: either a
literal chunk, or one attribute occurrence `KIND=["\']?cid:ID["\']?` — `kind`
is the lower-case attribute name, `attrTxt` the attribute text as written
(any case, including the `=`), `cidTxt` the `cid:` text as written (any
case), `cid` the referenced id, and `q` the quote (`none` for an unquoted
value). -/
inductive CidSeg where
  | lit (s : List Char)
  | occ (kind attrTxt cidTxt cid : List Char) (q : Option Char)

/-- The text of a segment as it appears in the HTML string. -/
def segText : CidSeg → List Char
  | CidSeg.lit s => s
  | CidSeg.occ _ attrTxt cidTxt cid q =>
    match q with
    | some qc => attrTxt ++ (qc :: (cidTxt ++ (cid ++ [qc])))
    | none => attrTxt ++ (cidTxt ++ cid)

/-- The HTML string described by a segment list. -/
def concatSegs (L : List CidSeg) : List Char := (L.map segText).flatten

/-- The source's id resolution (`for key in [f"cid:{cid}", cid]`): the image
index entry for the referenced id, tried first with the `cid:` prefix and
then bare. -/
def cidResolve (images : List (List Char × List Char)) (cid : List Char) :
    Option (List Char) :=
  match dlookup images ((("cid:").toList) ++ cid) with
  | some uri => some uri
  | none => dlookup images cid

/-- The effect of the pass for attribute `a` on one segment: an occurrence of
kind `a` whose id resolves in the index becomes the literal `a="<uri>"`
(canonical lower-case, double-quoted — the source's replacement template);
an occurrence whose id is absent stays byte-for-byte unchanged; every other
segment is untouched. -/
def rwSeg (images : List (List Char × List Char)) (a : List Char) :
    CidSeg → CidSeg
  | CidSeg.lit s => CidSeg.lit s
  | CidSeg.occ k attrTxt cidTxt cid q =>
    if k = a then
      match cidResolve images cid with
      | some uri => CidSeg.lit (a ++ ('=' :: '"' :: (uri ++ ['"'])))
      | none => CidSeg.occ k attrTxt cidTxt cid q
    else CidSeg.occ k attrTxt cidTxt cid q

/-- Intrinsic well-formedness of a segment: an occurrence names one of the
three scanned attributes, its attribute and `cid:` texts are the respective
literals up to letter case, its id is non-empty and made of id characters
(no quote, whitespace or `>`), and its quote, if any, is `"` or `'`. -/
def segWf : CidSeg → Bool
  | CidSeg.lit _ => true
  | CidSeg.occ k attrTxt cidTxt cid q =>
    (k == ("src").toList || k == ("href").toList ||
        k == ("background").toList) &&
    (attrTxt.map lowerChar == k ++ ['=']) &&
    (cidTxt.map lowerChar == ("cid:").toList) &&
    (!cid.isEmpty) && cid.all cidAllowed &&
    (match q with
     | none => true
     | some qc => qc == '"' || qc == '\'')

/-- No match of the pass for attribute `a` starts at a proper position of the
text `s` when `X` is the text that follows it. -/
def noCidAt (images : List (List Char × List Char)) (a s X : List Char) :
    Bool :=
  s.tails.all (fun t => t.isEmpty || (tryCid a images (t ++ X)).isNone)

/-- After an unquoted occurrence the following text must not start with an
id character (the greedy `[^"\'\s>]+` would extend the capture) nor with a
quote (the trailing `["\']?` would consume it). -/
def boundaryOk (X : List Char) : Bool :=
  match X.head? with
  | none => true
  | some c => !(cidAllowed c) && !(c == '"') && !(c == '\'')

/-- The segment list is clean for the pass of attribute `a`: the pass fires
at no position inside a literal or inside an occurrence of another kind, and
each unquoted occurrence of kind `a` is properly delimited by what follows. -/
def passClean (images : List (List Char × List Char)) (a : List Char) :
    List CidSeg → Bool
  | [] => true
  | CidSeg.lit s :: rest =>
    noCidAt images a s (concatSegs rest) && passClean images a rest
  | CidSeg.occ k attrTxt cidTxt cid q :: rest =>
    (if k = a then
      (match q with
       | none => boundaryOk (concatSegs rest)
       | some _ => true)
     else
      noCidAt images a (segText (CidSeg.occ k attrTxt cidTxt cid q))
        (concatSegs rest)) &&
    passClean images a rest

/-! ## Theorems -/

theorem lexLe_total (a b : List Char) : lexLe a b = true ∨ lexLe b a = true := by
  induction a generalizing b with
  | nil => left; rfl
  | cons x xs ih =>
    cases b with
    | nil => right; rfl
    | cons y ys =>
      simp only [lexLe]
      by_cases h₁ : x.toNat < y.toNat
      · left; simp [h₁]
      · by_cases h₂ : y.toNat < x.toNat
        · right; simp [h₂]
        · rcases ih ys with h | h
          · left; simp [h₁, h₂, h]
          · right; simp [h₁, h₂, h]

theorem lexLe_trans (a b c : List Char) (hab : lexLe a b = true)
    (hbc : lexLe b c = true) : lexLe a c = true := by
  induction a generalizing b c with
  | nil => rfl
  | cons x xs ih =>
    cases b with
    | nil => simp [lexLe] at hab
    | cons y ys =>
      cases c with
      | nil => simp [lexLe] at hbc
      | cons z zs =>
        simp only [lexLe] at hab hbc ⊢
        by_cases hxy : x.toNat < y.toNat
        · by_cases hyz : y.toNat < z.toNat
          · simp [show x.toNat < z.toNat by omega]
          · by_cases hzy : z.toNat < y.toNat
            · simp [hyz, hzy] at hbc
            · have : y.toNat = z.toNat := by omega
              simp [show x.toNat < z.toNat by omega]
        · by_cases hyx : y.toNat < x.toNat
          · simp [hxy, hyx] at hab
          · have hxyeq : x.toNat = y.toNat := by omega
            rw [if_neg hxy, if_neg hyx] at hab
            by_cases hyz : y.toNat < z.toNat
            · simp [show x.toNat < z.toNat by omega]
            · by_cases hzy : z.toNat < y.toNat
              · simp [hyz, hzy] at hbc
              · have hxz : ¬ x.toNat < z.toNat := by omega
                have hzx : ¬ z.toNat < x.toNat := by omega
                rw [if_neg hyz, if_neg hzy] at hbc
                rw [if_neg hxz, if_neg hzx]
                exact ih ys zs hab hbc

theorem ciDrop_length {pat l r : List Char} (h : ciDrop pat l = some r) :
    r.length + pat.length = l.length := by
  induction pat generalizing l with
  | nil => simp [ciDrop] at h; simp [h]
  | cons p ps ih =>
    cases l with
    | nil => simp [ciDrop] at h
    | cons c cs =>
      simp only [ciDrop] at h
      split at h
      · have := ih h
        simp [List.length_cons]
        omega
      · exact absurd h (by simp)

theorem scanSubF_congr {try?} (hlt : Regressive try?) :
    ∀ fuel₁ fuel₂ (l : List Char), l.length ≤ fuel₁ → l.length ≤ fuel₂ →
      scanSubF try? fuel₁ l = scanSubF try? fuel₂ l := by
  intro fuel₁
  induction fuel₁ with
  | zero =>
    intro fuel₂ l h₁ _
    have : l = [] := List.length_eq_zero.mp (Nat.le_zero.mp h₁)
    subst this
    cases fuel₂ <;> simp [scanSubF]
  | succ f₁ ih =>
    intro fuel₂ l h₁ h₂
    cases l with
    | nil => cases fuel₂ <;> simp [scanSubF]
    | cons c cs =>
      cases fuel₂ with
      | zero => simp at h₂
      | succ f₂ =>
        cases hm : try? (c :: cs) with
        | some p =>
          obtain ⟨em, rest⟩ := p
          have hr := hlt _ _ _ hm
          simp only [List.length_cons] at h₁ h₂ hr
          simp only [scanSubF, hm]
          rw [ih f₂ rest (by omega) (by omega)]
        | none =>
          simp only [List.length_cons] at h₁ h₂
          simp only [scanSubF, hm]
          rw [ih f₂ cs (by omega) (by omega)]

theorem scanSub_nil {try?} : scanSub try? [] = [] := rfl

theorem scanSub_match {try?} (hlt : Regressive try?) {c : Char} {cs em rest : List Char}
    (hm : try? (c :: cs) = some (em, rest)) :
    scanSub try? (c :: cs) = em ++ scanSub try? rest := by
  have hr := hlt _ _ _ hm
  simp only [List.length_cons] at hr
  simp only [scanSub, List.length_cons, scanSubF, hm]
  rw [scanSubF_congr hlt cs.length rest.length rest (by omega) (by omega)]

theorem scanSub_match' {try?} (hlt : Regressive try?) {l em rest : List Char}
    (hm : try? l = some (em, rest)) :
    scanSub try? l = em ++ scanSub try? rest := by
  cases l with
  | nil =>
    have := hlt _ _ _ hm
    simp at this
  | cons c cs => exact scanSub_match hlt hm

theorem scanSub_skip {try?} {c : Char} {cs : List Char}
    (hm : try? (c :: cs) = none) :
    scanSub try? (c :: cs) = c :: scanSub try? cs := by
  simp only [scanSub, List.length_cons, scanSubF, hm]

/-- A pass is the identity on text in which the pattern never matches. -/
theorem scanSub_id {try?} {l : List Char}
    (h : ∀ t, t <:+ l → try? t = none) : scanSub try? l = l := by
  induction l with
  | nil => rfl
  | cons c cs ih =>
    rw [scanSub_skip (h _ (List.suffix_refl _))]
    rw [ih (fun t ht => h t (ht.trans (List.suffix_cons c cs)))]

/-- A pass leaves an initial segment untouched when no match can start
inside it. -/
theorem scanSub_append {try?} {a b : List Char}
    (h : ∀ t, t ≠ [] → t <:+ a → try? (t ++ b) = none) :
    scanSub try? (a ++ b) = a ++ scanSub try? b := by
  induction a with
  | nil => rfl
  | cons c a' ih =>
    have h₀ : try? (c :: (a' ++ b)) = none := by
      have := h (c :: a') (by simp) (List.suffix_refl _)
      simpa using this
    rw [List.cons_append, scanSub_skip h₀,
      ih (fun t ht hs => h t ht (hs.trans (List.suffix_cons c a'))), List.cons_append]

theorem tryWsRun_regressive : Regressive tryWsRun := by
  intro l em rest h
  cases l with
  | nil => simp [tryWsRun] at h
  | cons c cs =>
    simp only [tryWsRun] at h
    split at h
    · simp only [Option.some.injEq, Prod.mk.injEq] at h
      have := (List.dropWhile_sublist (l := cs) (p := pyIsSpace)).length_le
      rw [← h.2]
      simp only [List.length_cons]
      omega
    · exact absurd h (by simp)

theorem tryEmptyPair_regressive (o k : Char) : Regressive (tryEmptyPair o k) := by
  intro l em rest h
  cases l with
  | nil => rw [show tryEmptyPair o k [] = none from rfl] at h; cases h
  | cons c cs =>
    simp only [tryEmptyPair] at h
    have hd := (List.dropWhile_sublist (l := cs) (p := pyIsSpace)).length_le
    split at h
    · simp only [Option.some.injEq, Prod.mk.injEq] at h
      rw [← h.2]
      have ht := List.length_tail (cs.dropWhile pyIsSpace)
      simp only [List.length_cons]
      omega
    · exact absurd h (by simp)

/-- C1 counterexample: the input `"<>"` contains no match of any rule of the
empty rule list, yet `anonymize_content` does not return it with only
whitespace collapsed (the `re.sub(r'\s+', ' ', ...)` pass alone): the empty
angle-bracket pair is deleted as well. -/
theorem anonymize_content_not_ws_only :
    anonymize_content [] (("<>").toList) ≠ scanSub tryWsRun (("<>").toList) := by
  decide

/-- C1 (amended): for every rule list `R` and input `T` in which no pattern
of `R` matches (each substitution leaves `T` unchanged), `anonymize_content`
returns `T` with whitespace runs collapsed to single spaces, empty `<>` and
`()` pairs removed, and leading/trailing whitespace stripped. -/
theorem anonymize_content_pattern_free (rules : List (List Char → List Char))
    (T : List Char) (h : ∀ f ∈ rules, f T = T) :
    anonymize_content rules T =
      pyStrip (scanSub (tryEmptyPair '(' ')')
        (scanSub (tryEmptyPair '<' '>') (scanSub tryWsRun T))) := by
  have hfold : ∀ (rs : List (List Char → List Char)), (∀ f ∈ rs, f T = T) →
      rs.foldl (fun acc f => f acc) T = T := by
    intro rs
    induction rs with
    | nil => intro _; rfl
    | cons f fs ih =>
      intro hrs
      simp only [List.foldl_cons, hrs f (List.mem_cons_self f fs)]
      exact ih (fun g hg => hrs g (List.mem_cons_of_mem f hg))
  unfold anonymize_content
  by_cases hT : T = []
  · subst hT
    simp [pyStrip, scanSub, scanSubF]
  · simp only [if_neg hT, hfold rules h]

/-- Witness for the amended C1 at a concrete input. -/
theorem anonymize_content_pattern_free_witness :
    anonymize_content [] (("a  b ( ) c").toList) =
      pyStrip (scanSub (tryEmptyPair '(' ')')
        (scanSub (tryEmptyPair '<' '>') (scanSub tryWsRun (("a  b ( ) c").toList)))) :=
  anonymize_content_pattern_free [] (("a  b ( ) c").toList)
    (fun f hf => absurd hf (List.not_mem_nil f))

/-- The failure-summary entry contributed by one file, if any. -/
theorem convertLoop_spec (l : List (List Char × ConvOutcome)) :
    ∀ (sc : Nat) (failed : List (List Char × List Char)),
      convertLoop sc failed l =
        (sc + (l.filter (fun f => (eml_to_html_result f.2).1)).length,
         failed ++ l.filterMap (fun f =>
           match f.2 with
           | ConvOutcome.err m => some (f.1, m)
           | ConvOutcome.ok _ => none)) := by
  induction l with
  | nil => intro sc failed; simp [convertLoop]
  | cons f fs ih =>
    intro sc failed
    obtain ⟨name, o⟩ := f
    cases o with
    | ok out =>
      simp only [convertLoop, eml_to_html_result, ih, List.filter_cons,
        List.filterMap_cons]
      simp
      omega
    | err m =>
      simp only [convertLoop, eml_to_html_result, ih, List.filter_cons,
        List.filterMap_cons]
      simp

theorem filter_ok_filterMap_err_partition (l : List (List Char × ConvOutcome)) :
    (l.filter (fun f => (eml_to_html_result f.2).1)).length +
      (l.filterMap (fun f =>
        match f.2 with
        | ConvOutcome.err m => some (f.1, m)
        | ConvOutcome.ok _ => none)).length = l.length := by
  induction l with
  | nil => rfl
  | cons f fs ih =>
    obtain ⟨name, o⟩ := f
    cases o with
    | ok out =>
      simp only [List.filter_cons, List.filterMap_cons, eml_to_html_result,
        List.length_cons] at ih ⊢
      simp at ih ⊢
      omega
    | err m =>
      simp only [List.filter_cons, List.filterMap_cons, eml_to_html_result,
        List.length_cons] at ih ⊢
      simp at ih ⊢
      omega

/-- C8: the batch converts exactly the files whose name ends in `.eml`
case-insensitively, and processes each one independently: the success count
is the number of successful conversions, the failure summary lists exactly
the `(file, error-message)` pair of each failed file in encounter order, and
every selected file is accounted for either as a success or as a failure —
the loop always runs to completion (`eml_to_html` yields the value
`(False, error-text)` on failure rather than raising). -/
theorem convert_all_eml_files_spec (files : List (List Char × ConvOutcome)) :
    (convert_all_eml_files files).1 =
        ((files.filter (fun f => ((".eml").toList).isSuffixOf (f.1.map lowerChar))).filter
          (fun f => (eml_to_html_result f.2).1)).length
    ∧ (convert_all_eml_files files).2 =
        (files.filter (fun f => ((".eml").toList).isSuffixOf (f.1.map lowerChar))).filterMap
          (fun f => match f.2 with
            | ConvOutcome.err m => some (f.1, m)
            | ConvOutcome.ok _ => none)
    ∧ (convert_all_eml_files files).1 + (convert_all_eml_files files).2.length =
        (files.filter (fun f => ((".eml").toList).isSuffixOf (f.1.map lowerChar))).length := by
  unfold convert_all_eml_files
  rw [convertLoop_spec]
  refine ⟨by simp, by simp, ?_⟩
  simp only [Nat.zero_add, List.nil_append]
  exact filter_ok_filterMap_err_partition _

/-- C4: `extract_attachments_info` lists a part exactly when its disposition
contains `attachment`, it has a non-empty filename, and it is not an image
also marked `inline`; each descriptor's size is the decoded payload's byte
length, or `0` for an undecodable (`None`) payload. -/
theorem extract_attachments_info_spec (parts : List Part) :
    extract_attachments_info parts =
      (parts.filter (fun p =>
        containsSub (("attachment").toList) p.content_disposition &&
        !(p.filename.getD []).isEmpty &&
        (!(("image/").toList.isPrefixOf p.content_type) ||
          !(containsSub (("inline").toList) p.content_disposition)))).map
        (fun p =>
          { filename := p.filename.getD []
            type := p.content_type
            size := (match p.payload with
              | some bs => bs.length
              | none => 0) }) := by
  induction parts with
  | nil => rfl
  | cons p rest ih =>
    by_cases hA : containsSub (("attachment").toList) p.content_disposition
    · cases hfn : p.filename with
      | none => simp_all [extract_attachments_info, List.filter_cons]
      | some fn =>
        by_cases hfe : fn = []
        · subst hfe
          simp_all [extract_attachments_info, List.filter_cons]
        · by_cases hImg : (!(("image/").toList.isPrefixOf p.content_type) ||
              !(containsSub (("inline").toList) p.content_disposition)) = true
          · simp_all [extract_attachments_info, List.filter_cons]
          · simp only [Bool.or_eq_true, Bool.not_eq_true', not_or] at hImg
            simp_all [extract_attachments_info, List.filter_cons]
    · simp_all [extract_attachments_info, List.filter_cons]

/-- C9: the index rows are emitted sorted by subject, case-insensitively
ascending: for any two consecutive rows the lower-cased subject of the
earlier row compares less-or-equal to that of the later one. -/
theorem generate_index_rows_sorted (infos : List EmailInfo) :
    List.Chain' (fun a b => lexLe (subjectKey a) (subjectKey b) = true)
      (generate_index_rows infos) := by
  haveI : IsTotal EmailInfo (fun a b => lexLe (subjectKey a) (subjectKey b) = true) :=
    ⟨fun a b => lexLe_total _ _⟩
  haveI : IsTrans EmailInfo (fun a b => lexLe (subjectKey a) (subjectKey b) = true) :=
    ⟨fun a b c => lexLe_trans _ _ _⟩
  rw [List.chain'_iff_pairwise]
  exact List.sorted_insertionSort _ infos

theorem dlookup_dinsert_self (d : List (List Char × List Char))
    (k v : List Char) : dlookup (dinsert d k v) k = some v := by
  induction d with
  | nil => simp [dinsert, dlookup]
  | cons kv rest ih =>
    obtain ⟨k', v'⟩ := kv
    by_cases h : k = k'
    · subst h; simp [dinsert, dlookup]
    · simp [dinsert, dlookup, h, ih]

theorem dlookup_dinsert_ne (d : List (List Char × List Char))
    {k k' : List Char} (v : List Char) (h : k ≠ k') :
    dlookup (dinsert d k' v) k = dlookup d k := by
  induction d with
  | nil => simp [dinsert, dlookup, h]
  | cons kv rest ih =>
    obtain ⟨k₀, v₀⟩ := kv
    by_cases h₀ : k' = k₀
    · subst h₀
      simp [dinsert, dlookup, h]
    · simp [dinsert, dlookup, h₀, ih]

theorem dlookup_dinsert_isSome (d : List (List Char × List Char))
    (k k' v : List Char) (h : (dlookup d k).isSome) :
    (dlookup (dinsert d k' v) k).isSome := by
  by_cases hk : k = k'
  · subst hk; simp [dlookup_dinsert_self]
  · rw [dlookup_dinsert_ne _ _ hk]; exact h

theorem dlookup_dinsert_same_val (d : List (List Char × List Char))
    {k : List Char} (k' : List Char) {v : List Char}
    (h : dlookup d k = some v) : dlookup (dinsert d k' v) k = some v := by
  by_cases hk : k = k'
  · subst hk; exact dlookup_dinsert_self d k v
  · rw [dlookup_dinsert_ne _ _ hk]; exact h

theorem imageStep_preserves_isSome (d : List (List Char × List Char))
    (p : Part) (k : List Char) (h : (dlookup d k).isSome) :
    (dlookup (imageStep d p) k).isSome := by
  unfold imageStep
  split
  · cases hp : p.payload with
    | none => exact h
    | some bs =>
      by_cases hbs : bs = []
      · subst hbs; simp only [ne_eq, not_true_eq_false, if_false]; exact h
      · simp only [ne_eq, hbs, not_false_eq_true, if_true]
        have h₁ : (dlookup (if p.content_id ≠ [] then
            dinsert (dinsert d ((("cid:").toList) ++ stripAngles p.content_id)
              (dataUri p.content_type bs)) (stripAngles p.content_id)
              (dataUri p.content_type bs)
          else d) k).isSome := by
          split
          · exact dlookup_dinsert_isSome _ _ _ _ (dlookup_dinsert_isSome _ _ _ _ h)
          · exact h
        cases hf : p.filename with
        | none => exact h₁
        | some fn =>
          by_cases hfn : fn = []
          · simp only [ne_eq, hfn, not_true_eq_false, if_false]; exact h₁
          · simp only [ne_eq, hfn, not_false_eq_true, if_true]
            exact dlookup_dinsert_isSome _ _ _ _ h₁
  · exact h

theorem imageStep_no_register (d : List (List Char × List Char)) (p : Part)
    (k : List Char) (h : ¬ registersKey p k) :
    dlookup (imageStep d p) k = dlookup d k := by
  unfold imageStep
  split
  case isTrue himg =>
    cases hp : p.payload with
    | none => rfl
    | some bs =>
      by_cases hbs : bs = []
      · subst hbs; simp only [ne_eq, not_true_eq_false, if_false]
      · simp only [ne_eq, hbs, not_false_eq_true, if_true]
        have hex : ∃ b, p.payload = some b ∧ b ≠ [] := ⟨bs, hp, hbs⟩
        have h₁ : dlookup (if p.content_id ≠ [] then
            dinsert (dinsert d ((("cid:").toList) ++ stripAngles p.content_id)
              (dataUri p.content_type bs)) (stripAngles p.content_id)
              (dataUri p.content_type bs)
          else d) k = dlookup d k := by
          split
          case isTrue hcid =>
            have hk₁ : k ≠ (("cid:").toList) ++ stripAngles p.content_id := by
              intro hk; exact h ⟨himg, hex, Or.inl ⟨hcid, Or.inl hk⟩⟩
            have hk₂ : k ≠ stripAngles p.content_id := by
              intro hk; exact h ⟨himg, hex, Or.inl ⟨hcid, Or.inr hk⟩⟩
            rw [dlookup_dinsert_ne _ _ hk₂, dlookup_dinsert_ne _ _ hk₁]
          case isFalse => rfl
        cases hf : p.filename with
        | none => exact h₁
        | some fn =>
          by_cases hfn : fn = []
          · simp only [ne_eq, hfn, not_true_eq_false, if_false]; exact h₁
          · simp only [ne_eq, hfn, not_false_eq_true, if_true]
            have hkfn : k ≠ fn := by
              intro hk; subst hk
              exact h ⟨himg, hex, Or.inr ⟨hf, hfn⟩⟩
            rw [dlookup_dinsert_ne _ _ hkfn]; exact h₁
  case isFalse => rfl

theorem foldl_imageStep_no_register (l : List Part) (k : List Char) :
    ∀ d, (∀ q ∈ l, ¬ registersKey q k) →
      dlookup (l.foldl imageStep d) k = dlookup d k := by
  induction l with
  | nil => intro d _; rfl
  | cons q qs ih =>
    intro d h
    simp only [List.foldl_cons]
    rw [ih _ (fun r hr => h r (List.mem_cons_of_mem q hr))]
    exact imageStep_no_register d q k (h q (List.mem_cons_self q qs))

theorem foldl_imageStep_isSome (l : List Part) (k : List Char) :
    ∀ d, (dlookup d k).isSome → (dlookup (l.foldl imageStep d) k).isSome := by
  induction l with
  | nil => intro d h; exact h
  | cons q qs ih =>
    intro d h
    simp only [List.foldl_cons]
    exact ih _ (imageStep_preserves_isSome d q k h)

theorem stripAngles_cid_key_ne (s : List Char) :
    (("cid:").toList) ++ s ≠ s := by
  intro h
  have := congrArg List.length h
  simp at this
  omega

theorem imageStep_sets_cid (d : List (List Char × List Char)) (p : Part)
    (bs : List Nat)
    (himg : ("image/").toList.isPrefixOf p.content_type = true)
    (hp : p.payload = some bs) (hbs : bs ≠ []) (hcid : p.content_id ≠ []) :
    dlookup (imageStep d p) ((("cid:").toList) ++ stripAngles p.content_id)
        = some (dataUri p.content_type bs)
    ∧ dlookup (imageStep d p) (stripAngles p.content_id)
        = some (dataUri p.content_type bs) := by
  unfold imageStep
  rw [if_pos himg, hp]
  simp only [ne_eq, hbs, not_false_eq_true, if_true, hcid]
  have h₁ : dlookup (dinsert (dinsert d
      ((("cid:").toList) ++ stripAngles p.content_id) (dataUri p.content_type bs))
      (stripAngles p.content_id) (dataUri p.content_type bs))
      ((("cid:").toList) ++ stripAngles p.content_id) = some (dataUri p.content_type bs) := by
    rw [dlookup_dinsert_ne _ _ (stripAngles_cid_key_ne _)]
    exact dlookup_dinsert_self _ _ _
  have h₂ : dlookup (dinsert (dinsert d
      ((("cid:").toList) ++ stripAngles p.content_id) (dataUri p.content_type bs))
      (stripAngles p.content_id) (dataUri p.content_type bs))
      (stripAngles p.content_id) = some (dataUri p.content_type bs) :=
    dlookup_dinsert_self _ _ _
  cases hf : p.filename with
  | none => exact ⟨h₁, h₂⟩
  | some fn =>
    by_cases hfn : fn = []
    · simp only [ne_eq, hfn, not_true_eq_false, if_false]
      exact ⟨h₁, h₂⟩
    · simp only [ne_eq, hfn, not_false_eq_true, if_true]
      exact ⟨dlookup_dinsert_same_val _ _ h₁, dlookup_dinsert_same_val _ _ h₂⟩

/-- C5 counterexample: with two image parts sharing Content-ID `<a>`, the
keys of the first part resolve to the last part's data URI, which differs
from the first part's own data URI — so not every qualifying image part has
its keys mapped to its own `data:<content-type>;base64,<payload>` string. -/
theorem extract_images_shadowed :
    dlookup (extract_images_from_email
        [⟨("image/png").toList, [], ("<a>").toList, none, some [1]⟩,
         ⟨("image/png").toList, [], ("<a>").toList, none, some [2]⟩])
      (("cid:a").toList) = some (dataUri (("image/png").toList) [2])
    ∧ dataUri (("image/png").toList) [1] ≠ dataUri (("image/png").toList) [2] := by
  decide

/-- C5 (amended): every image part with a non-empty decoded payload and a
non-empty Content-ID is reachable in the final index under both the
`cid:`-prefixed and the bare (angle-stripped) key; and when no later part
registers either of those keys, both map to this part's own data URI
`data:<content-type>;base64,<payload>`. -/
theorem extract_images_spec (parts l₁ l₂ : List Part) (p : Part) (bs : List Nat)
    (hsplit : parts = l₁ ++ p :: l₂)
    (himg : ("image/").toList.isPrefixOf p.content_type = true)
    (hp : p.payload = some bs) (hbs : bs ≠ []) (hcid : p.content_id ≠ []) :
    ((dlookup (extract_images_from_email parts)
        ((("cid:").toList) ++ stripAngles p.content_id)).isSome
      ∧ (dlookup (extract_images_from_email parts)
        (stripAngles p.content_id)).isSome)
    ∧ ((∀ q ∈ l₂, ¬ registersKey q ((("cid:").toList) ++ stripAngles p.content_id)
          ∧ ¬ registersKey q (stripAngles p.content_id)) →
        dlookup (extract_images_from_email parts)
            ((("cid:").toList) ++ stripAngles p.content_id)
            = some (dataUri p.content_type bs)
        ∧ dlookup (extract_images_from_email parts) (stripAngles p.content_id)
            = some (dataUri p.content_type bs)) := by
  subst hsplit
  unfold extract_images_from_email
  rw [List.foldl_append, List.foldl_cons]
  have hset := imageStep_sets_cid (List.foldl imageStep [] l₁) p bs himg hp hbs hcid
  constructor
  · constructor
    · exact foldl_imageStep_isSome l₂ _ _ (by rw [hset.1]; rfl)
    · exact foldl_imageStep_isSome l₂ _ _ (by rw [hset.2]; rfl)
  · intro hshadow
    constructor
    · rw [foldl_imageStep_no_register l₂ _ _ (fun q hq => (hshadow q hq).1)]
      exact hset.1
    · rw [foldl_imageStep_no_register l₂ _ _ (fun q hq => (hshadow q hq).2)]
      exact hset.2

/-- Witness for the amended C5 at a concrete message. -/
theorem extract_images_spec_witness :
    dlookup (extract_images_from_email
        [⟨("image/png").toList, [], ("<a>").toList, none, some [7]⟩])
        ((("cid:").toList) ++ stripAngles (("<a>").toList))
        = some (dataUri (("image/png").toList) [7])
    ∧ dlookup (extract_images_from_email
        [⟨("image/png").toList, [], ("<a>").toList, none, some [7]⟩])
        (stripAngles (("<a>").toList))
        = some (dataUri (("image/png").toList) [7]) :=
  (extract_images_spec
    [⟨("image/png").toList, [], ("<a>").toList, none, some [7]⟩] [] []
    ⟨("image/png").toList, [], ("<a>").toList, none, some [7]⟩ [7]
    rfl (by decide) rfl (by decide) (by decide)).2
    (fun q hq => absurd hq (List.not_mem_nil q))

theorem toNat_ofNatAux {n : Nat} (h : n.isValidChar) :
    (Char.ofNatAux n h).toNat = n := by
  simp [Char.toNat, Char.ofNatAux, UInt32.toNat, BitVec.toNat_ofNatLt]

/-- `lowerChar` can only produce a character below code point 97 from that
very character. -/
theorem lowerChar_fix_of_lt {c t : Char} (ht : t.toNat < 97)
    (h : lowerChar c = t) : c = t := by
  unfold lowerChar at h
  split at h
  next hc =>
    have h₁ : 65 ≤ c.toNat := hc.1
    have h₂ : c.toNat ≤ 90 := hc.2
    have hv : (c.toNat + 32).isValidChar := Or.inl (by omega)
    have h₃ := congrArg Char.toNat h
    rw [show Char.ofNat (c.toNat + 32) = Char.ofNatAux (c.toNat + 32) hv from by
      unfold Char.ofNat; rw [dif_pos hv]] at h₃
    rw [toNat_ofNatAux hv] at h₃
    omega
  next => exact h

theorem ciDrop_img_none {c : Char} (r : List Char) (hc : c ≠ '<') :
    ciDrop (("<img").toList) (c :: r) = none := by
  have hne : ¬ (lowerChar c = lowerChar '<') := by
    intro h
    exact hc (lowerChar_fix_of_lt (by decide) (h.trans (by decide)))
  simp only [show ("<img").toList = '<' :: ('i' :: 'm' :: 'g' :: []) from rfl,
    ciDrop]
  rw [if_neg hne]

theorem tryDim_none_of_no_img {w t : List Char}
    (h : ciDrop (("<img").toList) t = none) : tryDim w t = none := by
  unfold tryDim
  rw [h]

theorem tryImgTag_none_of_no_img {t : List Char}
    (h : ciDrop (("<img").toList) t = none) : tryImgTag t = none := by
  unfold tryImgTag
  rw [h]

theorem ciDrop_eq_drop {pat l r : List Char} (h : ciDrop pat l = some r) :
    r = l.drop pat.length := by
  induction pat generalizing l with
  | nil => simp [ciDrop] at h; simp [h]
  | cons p ps ih =>
    cases l with
    | nil => simp [ciDrop] at h
    | cons c cs =>
      simp only [ciDrop] at h
      split at h
      · have := ih h
        simpa using this
      · exact absurd h (by simp)

theorem ciDrop_append_of_le {pat b : List Char} (h : pat.length ≤ b.length)
    (A : List Char) :
    ciDrop pat (b ++ A) = (ciDrop pat b).map (fun r => r ++ A) := by
  induction pat generalizing b with
  | nil => simp [ciDrop]
  | cons p ps ih =>
    cases b with
    | nil => simp at h
    | cons c cs =>
      rw [List.cons_append]
      by_cases hcp : lowerChar c = lowerChar p
      · simp only [ciDrop, if_pos hcp]
        exact ih (by simpa using h) ▸ rfl
      · simp only [ciDrop, if_neg hcp]
        rfl

theorem ciDrop_gt_none {pat b : List Char} (R : List Char)
    (hpat : ∀ p ∈ pat, lowerChar p ≠ '>') (hb : b.length < pat.length) :
    ciDrop pat (b ++ '>' :: R) = none := by
  induction pat generalizing b with
  | nil => simp at hb
  | cons p ps ih =>
    cases b with
    | nil =>
      simp only [List.nil_append, ciDrop]
      have hne : ¬ lowerChar '>' = lowerChar p := by
        intro h
        rw [show lowerChar '>' = '>' from by decide] at h
        exact hpat p (List.mem_cons_self p ps) h.symm
      rw [if_neg hne]
    | cons c cs =>
      simp only [List.cons_append, ciDrop]
      by_cases hcp : lowerChar c = lowerChar p
      · rw [if_pos hcp]
        exact ih (fun x hx => hpat x (List.mem_cons_of_mem p hx))
          (by simpa using hb)
      · rw [if_neg hcp]

theorem ciDrop_img_none_short {u X : List Char} (hne : u ≠ [])
    (hu : u.length < 4) (hX : X.head? = some '<') :
    ciDrop (("<img").toList) (u ++ X) = none := by
  obtain ⟨X', rfl⟩ : ∃ X', X = '<' :: X' := by
    cases X with
    | nil => simp at hX
    | cons x X' =>
      refine ⟨X', ?_⟩
      simp only [List.head?_cons, Option.some.injEq] at hX
      rw [hX]
  cases u with
  | nil => exact absurd rfl hne
  | cons a u1 =>
    cases u1 with
    | nil =>
      show ciDrop ('<' :: 'i' :: 'm' :: 'g' :: []) (a :: '<' :: X') = none
      simp only [ciDrop]
      rw [if_neg (show ¬ lowerChar '<' = lowerChar 'i' from by decide)]
      simp
    | cons b u2 =>
      cases u2 with
      | nil =>
        show ciDrop ('<' :: 'i' :: 'm' :: 'g' :: []) (a :: b :: '<' :: X') = none
        simp only [ciDrop]
        rw [if_neg (show ¬ lowerChar '<' = lowerChar 'm' from by decide)]
        simp
      | cons c u3 =>
        cases u3 with
        | nil =>
          show ciDrop ('<' :: 'i' :: 'm' :: 'g' :: [])
              (a :: b :: c :: '<' :: X') = none
          simp only [ciDrop]
          rw [if_neg (show ¬ lowerChar '<' = lowerChar 'g' from by decide)]
          simp
        | cons d u4 =>
          simp only [List.length_cons] at hu
          omega

theorem dropWhile_gt {p : Char → Bool} (hp : p '>' = false) (b R : List Char) :
    (b ++ '>' :: R).dropWhile p = b.dropWhile p ++ '>' :: R := by
  induction b with
  | nil => simp [List.dropWhile_cons, hp]
  | cons c cs ih =>
    by_cases hc : p c = true
    · simp [List.dropWhile_cons, hc, ih]
    · simp [List.dropWhile_cons, hc]

theorem takeWhile_gt {p : Char → Bool} (hp : p '>' = false) (b R : List Char) :
    (b ++ '>' :: R).takeWhile p = b.takeWhile p := by
  induction b with
  | nil => simp [List.takeWhile_cons, hp]
  | cons c cs ih =>
    by_cases hc : p c = true
    · simp [List.takeWhile_cons, hc, ih]
    · simp [List.takeWhile_cons, hc]

theorem optQuote_gt (b R : List Char) :
    optQuote (b ++ '>' :: R) = optQuote b ++ '>' :: R := by
  cases b with
  | nil =>
    show optQuote ('>' :: R) = '>' :: R
    simp only [optQuote]
    rw [if_neg (by decide)]
  | cons c cs =>
    by_cases hq : c = '"' ∨ c = '\''
    · simp only [List.cons_append, optQuote, if_pos hq]
    · simp only [List.cons_append, optQuote, if_neg hq]

theorem all_gt_sublist {a b : List Char} (h : a.Sublist b)
    (hb : b.all (fun c => c != '>') = true) :
    a.all (fun c => c != '>') = true := by
  rw [List.all_eq_true] at hb ⊢
  exact fun c hc => hb c (h.subset hc)

theorem optQuote_length (l : List Char) : (optQuote l).length ≤ l.length := by
  cases l with
  | nil => simp [optQuote]
  | cons c cs =>
    simp only [optQuote]
    split <;> simp

theorem takeWhile_append_all {p : Char → Bool} {xs : List Char}
    (ys : List Char) (h : ∀ c ∈ xs, p c = true) :
    (xs ++ ys).takeWhile p = xs ++ ys.takeWhile p := by
  induction xs with
  | nil => rfl
  | cons x xs ih =>
    rw [List.cons_append, List.takeWhile_cons,
      if_pos (h x (List.mem_cons_self x xs)),
      ih (fun c hc => h c (List.mem_cons_of_mem x hc))]
    rfl

theorem takeWhile_all {p : Char → Bool} {xs : List Char}
    (h : ∀ c ∈ xs, p c = true) : xs.takeWhile p = xs := by
  have := takeWhile_append_all (p := p) [] h
  simpa using this

theorem parseDimAttr_le {w s r : List Char} (h : parseDimAttr w s = some r) :
    r.length ≤ s.length := by
  cases s with
  | nil => exact absurd h (by simp [parseDimAttr])
  | cons c cs =>
    simp only [parseDimAttr] at h
    split at h
    · split at h
      · exact absurd h (by simp)
      next s₂ hci =>
        split at h
        · exact absurd h (by simp)
        next hds =>
          simp only [Option.some.injEq] at h
          have h1 : s₂.length + (w.length + 1) = ((c :: cs).dropWhile pyIsSpace).length := by
            have := ciDrop_length hci
            simpa using this
          have h2 := (List.dropWhile_sublist (l := c :: cs) (p := pyIsSpace)).length_le
          have h3 := optQuote_length s₂
          have h4 : ((optQuote s₂).drop
              ((optQuote s₂).takeWhile Char.isDigit).length).length
              ≤ (optQuote s₂).length := by
            rw [List.length_drop]
            omega
          have h5 := (List.dropWhile_sublist
            (l := (optQuote s₂).drop ((optQuote s₂).takeWhile Char.isDigit).length)
            (p := isPxChar)).length_le
          have h6 := optQuote_length
            (((optQuote s₂).drop
              ((optQuote s₂).takeWhile Char.isDigit).length).dropWhile isPxChar)
          rw [← h]
          omega
    · exact absurd h (by simp)

theorem findDim_le {w s g r : List Char} (h : findDim w s = some (g, r)) :
    r.length ≤ s.length := by
  induction s generalizing g r with
  | nil => exact absurd h (by simp [findDim])
  | cons c cs ih =>
    simp only [findDim] at h
    split at h
    · exact absurd h (by simp)
    · split at h
      next rest hp =>
        simp only [Option.some.injEq, Prod.mk.injEq] at h
        have := parseDimAttr_le hp
        rw [← h.2]
        exact this
      next hp =>
        split at h
        next g₁ rest hf =>
          simp only [Option.some.injEq, Prod.mk.injEq] at h
          have := ih (g := g₁) hf
          rw [← h.2]
          simp only [List.length_cons]
          omega
        next => exact absurd h (by simp)

theorem tryDim_regressive (w : List Char) : Regressive (tryDim w) := by
  intro l em rest h
  simp only [tryDim] at h
  split at h
  · exact absurd h (by simp)
  next l₁ hci =>
    have hl₁ : l₁.length + 4 = l.length := by
      have := ciDrop_length hci
      simpa using this
    split at h
    · exact absurd h (by simp)
    next g₁ r₂ hf =>
      have hr₂ := findDim_le hf
      split at h
      next rest' hd =>
        simp only [Option.some.injEq, Prod.mk.injEq] at h
        have hlen := congrArg List.length hd
        simp only [List.length_drop, List.length_cons] at hlen
        rw [← h.2]
        omega
      next => exact absurd h (by simp)

theorem tryImgTag_regressive : Regressive tryImgTag := by
  intro l em rest h
  simp only [tryImgTag] at h
  split at h
  · exact absurd h (by simp)
  next l₁ hci =>
    have hl₁ : l₁.length + 4 = l.length := by
      have := ciDrop_length hci
      simpa using this
    split at h
    · exact absurd h (by simp)
    next hinner =>
      split at h
      next rest' hd =>
        simp only [Option.some.injEq, Prod.mk.injEq] at h
        have hlen := congrArg List.length hd
        simp only [List.length_drop, List.length_cons] at hlen
        rw [← h.2]
        omega
      next => exact absurd h (by simp)

theorem parseDimAttr_gt (w : List Char) (hw : ∀ p ∈ w, lowerChar p ≠ '>')
    {b : List Char} (hb : b.all (fun c => c != '>') = true) :
    (∀ R, parseDimAttr w (b ++ '>' :: R) = none) ∨
    (∃ v, v.all (fun c => c != '>') = true ∧
      ∀ R, parseDimAttr w (b ++ '>' :: R) = some (v ++ '>' :: R)) := by
  have hw' : ∀ p ∈ w ++ ['='], lowerChar p ≠ '>' := by
    intro p hp
    rcases List.mem_append.mp hp with h | h
    · exact hw p h
    · simp only [List.mem_singleton] at h
      subst h
      decide
  cases b with
  | nil =>
    left
    intro R
    show parseDimAttr w ('>' :: R) = none
    simp only [parseDimAttr]
    rw [if_neg (by decide)]
  | cons c cs =>
    by_cases hsp : pyIsSpace c = true
    · have hd1 : ∀ R : List Char, ((c :: cs) ++ '>' :: R).dropWhile pyIsSpace
          = (c :: cs).dropWhile pyIsSpace ++ '>' :: R :=
        dropWhile_gt (by decide) (c :: cs)
      have hb₁ : ((c :: cs).dropWhile pyIsSpace).all (fun c => c != '>') = true :=
        all_gt_sublist (List.dropWhile_sublist _) hb
      by_cases hlen : (w ++ ['=']).length ≤ ((c :: cs).dropWhile pyIsSpace).length
      · cases hci : ciDrop (w ++ ['=']) ((c :: cs).dropWhile pyIsSpace) with
        | none =>
          left
          intro R
          rw [List.cons_append]
          simp only [parseDimAttr, if_pos hsp, ← List.cons_append, hd1 R,
            ciDrop_append_of_le hlen, hci, Option.map_none']
        | some b₂ =>
          have hb₂ : b₂.all (fun c => c != '>') = true := by
            have he := ciDrop_eq_drop hci
            exact all_gt_sublist (he ▸ List.drop_sublist _ _) hb₁
          have hb₃ : (optQuote b₂).all (fun c => c != '>') = true := by
            refine all_gt_sublist ?_ hb₂
            cases b₂ with
            | nil => simp [optQuote]
            | cons x xs =>
              simp only [optQuote]
              split
              · exact List.sublist_cons_self x xs
              · exact List.Sublist.refl _
          have hds : ∀ R : List Char, ((optQuote b₂) ++ '>' :: R).takeWhile Char.isDigit
              = (optQuote b₂).takeWhile Char.isDigit :=
            takeWhile_gt (by decide) (optQuote b₂)
          by_cases hdsn : (optQuote b₂).takeWhile Char.isDigit = []
          · left
            intro R
            rw [List.cons_append]
            simp only [parseDimAttr, if_pos hsp, ← List.cons_append, hd1 R,
              ciDrop_append_of_le hlen, hci, Option.map_some', optQuote_gt,
              hds R, hdsn]
            simp
          · right
            have htwle := (List.takeWhile_sublist
              (l := optQuote b₂) (p := Char.isDigit)).length_le
            have hb₅ : (((optQuote b₂).drop
                ((optQuote b₂).takeWhile Char.isDigit).length).dropWhile
                  isPxChar).all (fun c => c != '>') = true :=
              all_gt_sublist ((List.dropWhile_sublist _).trans
                (List.drop_sublist _ _)) hb₃
            refine ⟨optQuote (((optQuote b₂).drop
                ((optQuote b₂).takeWhile Char.isDigit).length).dropWhile
                  isPxChar), ?_, ?_⟩
            · refine all_gt_sublist ?_ hb₅
              generalize ((optQuote b₂).drop
                ((optQuote b₂).takeWhile Char.isDigit).length).dropWhile
                  isPxChar = z
              cases z with
              | nil => simp [optQuote]
              | cons x xs =>
                simp only [optQuote]
                split
                · exact List.sublist_cons_self x xs
                · exact List.Sublist.refl _
            · intro R
              rw [List.cons_append]
              simp only [parseDimAttr, if_pos hsp, ← List.cons_append, hd1 R,
                ciDrop_append_of_le hlen, hci, Option.map_some', optQuote_gt,
                hds R, if_neg hdsn,
                List.drop_append_of_le_length htwle,
                dropWhile_gt (show isPxChar '>' = false from by decide)]
      · left
        intro R
        rw [List.cons_append]
        have hnone : ciDrop (w ++ ['='])
            ((c :: cs).dropWhile pyIsSpace ++ '>' :: R) = none :=
          ciDrop_gt_none R hw' (by omega)
        simp only [parseDimAttr, if_pos hsp, ← List.cons_append, hd1 R, hnone]
    · left
      intro R
      rw [List.cons_append]
      simp only [parseDimAttr, if_neg hsp]

theorem findDim_gt (w : List Char) (hw : ∀ p ∈ w, lowerChar p ≠ '>') :
    ∀ {b : List Char}, b.all (fun c => c != '>') = true →
    (∀ R, findDim w (b ++ '>' :: R) = none) ∨
    (∃ g v, g.all (fun c => c != '>') = true ∧
      v.all (fun c => c != '>') = true ∧
      ∀ R, findDim w (b ++ '>' :: R) = some (g, v ++ '>' :: R)) := by
  intro b
  induction b with
  | nil =>
    intro _
    left
    intro R
    show findDim w ('>' :: R) = none
    simp only [findDim]
    simp
  | cons c cs ih =>
    intro hb
    simp only [List.all_cons, Bool.and_eq_true] at hb
    have hcne : ¬ c = '>' := by
      intro h
      subst h
      simp at hb
    have hcs := hb.2
    rcases parseDimAttr_gt w hw (b := c :: cs)
        (by simp [List.all_cons, hb.1, hcs]) with hnone | ⟨v, hv, hsome⟩
    · rcases ih hcs with hn2 | ⟨g, v, hg, hv, hs2⟩
      · left
        intro R
        rw [List.cons_append]
        simp only [findDim, if_neg hcne, ← List.cons_append, hnone R, hn2 R]
      · right
        refine ⟨c :: g, v, by simp [List.all_cons, hb.1, hg], hv, fun R => ?_⟩
        rw [List.cons_append]
        simp only [findDim, if_neg hcne, ← List.cons_append, hnone R, hs2 R]
    · right
      refine ⟨[], v, by decide, hv, fun R => ?_⟩
      rw [List.cons_append]
      simp only [findDim, if_neg hcne, ← List.cons_append, hsome R]

theorem tryDim_gt (w : List Char) (hw : ∀ p ∈ w, lowerChar p ≠ '>')
    {b : List Char} (hb : b.all (fun c => c != '>') = true) :
    (∀ R, tryDim w (b ++ '>' :: R) = none) ∨
    (∃ e, e.all (fun c => c != '>') = true ∧ e.head? = some '<' ∧
      b.head? = some '<' ∧
      ∀ R, tryDim w (b ++ '>' :: R) = some (e ++ ['>'], R)) := by
  by_cases hlen : 4 ≤ b.length
  · have h4 : (("<img").toList).length ≤ b.length := by
      rw [show (("<img").toList).length = 4 from rfl]
      exact hlen
    cases hci : ciDrop (("<img").toList) b with
    | none =>
      left
      intro R
      simp only [tryDim, ciDrop_append_of_le h4, hci, Option.map_none']
    | some b₁ =>
      have hb₁eq : b₁ = b.drop 4 := by
        have := ciDrop_eq_drop hci
        simpa using this
      have hb₁ : b₁.all (fun c => c != '>') = true :=
        all_gt_sublist (hb₁eq ▸ List.drop_sublist _ _) hb
      have hbhead : b.head? = some '<' := by
        cases b with
        | nil => simp at hlen
        | cons x xs =>
          simp only [ciDrop] at hci
          split at hci
          next hx =>
            have : x = '<' :=
              lowerChar_fix_of_lt (by decide) (hx.trans (by decide))
            rw [this]
            rfl
          next => exact absurd hci (by simp)
      rcases findDim_gt w hw hb₁ with hn | ⟨g, v, hg, hv, hs⟩
      · left
        intro R
        simp only [tryDim, ciDrop_append_of_le h4, hci, Option.map_some', hn R]
      · right
        have hg₃ : ∀ R : List Char,
            (v ++ '>' :: R).takeWhile (fun c => c != '>') = v := by
          intro R
          rw [takeWhile_gt (by decide)]
          exact takeWhile_all (List.all_eq_true.mp hv)
        refine ⟨(("<img").toList) ++ g ++ v, ?_, rfl, hbhead, fun R => ?_⟩
        · rw [List.all_eq_true]
          intro x hx
          rcases List.mem_append.mp hx with hx | hx
          · rcases List.mem_append.mp hx with hx | hx
            · have he4 : ("<img").toList = ['<', 'i', 'm', 'g'] := rfl
              rw [he4] at hx
              simp only [List.mem_cons, List.not_mem_nil, or_false] at hx
              rcases hx with rfl | rfl | rfl | rfl <;> decide
            · exact List.all_eq_true.mp hg x hx
          · exact List.all_eq_true.mp hv x hx
        · simp only [tryDim, ciDrop_append_of_le h4, hci, Option.map_some',
            hs R, hg₃ R, List.drop_left]
  · left
    intro R
    have : ciDrop (("<img").toList) (b ++ '>' :: R) = none :=
      ciDrop_gt_none R (by decide)
        (by rw [show (("<img").toList).length = 4 from rfl]; omega)
    simp only [tryDim, this]

theorem tryImgTag_gt {b : List Char}
    (hb : b.all (fun c => c != '>') = true) :
    (∀ R, tryImgTag (b ++ '>' :: R) = none) ∨
    (∃ em, ∀ R, tryImgTag (b ++ '>' :: R) = some (em, R)) := by
  by_cases hlen : 4 ≤ b.length
  · have h4 : (("<img").toList).length ≤ b.length := by
      rw [show (("<img").toList).length = 4 from rfl]
      exact hlen
    cases hci : ciDrop (("<img").toList) b with
    | none =>
      left
      intro R
      simp only [tryImgTag, ciDrop_append_of_le h4, hci, Option.map_none']
    | some b₁ =>
      have hb₁eq : b₁ = b.drop 4 := by
        have := ciDrop_eq_drop hci
        simpa using this
      have hb₁ : b₁.all (fun c => c != '>') = true :=
        all_gt_sublist (hb₁eq ▸ List.drop_sublist _ _) hb
      have hinner : ∀ R : List Char,
          (b₁ ++ '>' :: R).takeWhile (fun c => c != '>') = b₁ := by
        intro R
        rw [takeWhile_gt (by decide)]
        exact takeWhile_all (List.all_eq_true.mp hb₁)
      by_cases hb₁nil : b₁ = []
      · left
        intro R
        simp only [tryImgTag, ciDrop_append_of_le h4, hci, Option.map_some',
          hinner R, if_pos hb₁nil]
      · right
        have htk : ∀ R : List Char,
            (b ++ '>' :: R).take (b₁.length + 5) = b ++ ['>'] := by
          intro R
          have hlt : b₁.length + 5 = b.length + 1 := by
            rw [hb₁eq, List.length_drop]
            omega
          rw [hlt, show b ++ '>' :: R = (b ++ ['>']) ++ R from by simp,
            List.take_append_of_le_length (by simp),
            show b.length + 1 = (b ++ ['>']).length from by simp,
            List.take_length]
        refine ⟨cleanStyle (b ++ ['>']), fun R => ?_⟩
        simp only [tryImgTag, ciDrop_append_of_le h4, hci, Option.map_some',
          hinner R, if_neg hb₁nil, List.drop_left, htk R]
  · left
    intro R
    have : ciDrop (("<img").toList) (b ++ '>' :: R) = none :=
      ciDrop_gt_none R (by decide)
        (by rw [show (("<img").toList).length = 4 from rfl]; omega)
    simp only [tryImgTag, this]

theorem tryDim_gtLocal (w : List Char) (hw : ∀ p ∈ w, lowerChar p ≠ '>') :
    GtLocal (tryDim w) := by
  intro b hb
  rcases tryDim_gt w hw hb with h | ⟨e, _, _, _, hs⟩
  · exact Or.inl h
  · exact Or.inr ⟨e ++ ['>'], hs⟩

theorem tryImgTag_gtLocal : GtLocal tryImgTag :=
  fun _ hb => tryImgTag_gt hb

theorem scanSub_gtLocal {M : List Char → Option (List Char × List Char)}
    (hreg : Regressive M) (hM : GtLocal M) :
    ∀ b : List Char, b.all (fun c => c != '>') = true → ∀ R,
      scanSub M (b ++ '>' :: R) = scanSub M (b ++ ['>']) ++ scanSub M R := by
  intro b
  induction b with
  | nil =>
    intro _ R
    rcases hM [] (by decide) with hn | ⟨em, hs⟩
    · have h1 : M ('>' :: R) = none := by simpa using hn R
      have h2 : M ('>' :: ([] : List Char)) = none := by simpa using hn []
      rw [List.nil_append, List.nil_append, scanSub_skip h1, scanSub_skip h2,
        scanSub_nil]
      rfl
    · have h1 : M ('>' :: R) = some (em, R) := by simpa using hs R
      have h2 : M ('>' :: ([] : List Char)) = some (em, []) := by
        simpa using hs []
      rw [List.nil_append, List.nil_append, scanSub_match' hreg h1,
        scanSub_match' hreg h2, scanSub_nil, List.append_nil]
  | cons c cs ih =>
    intro hb R
    simp only [List.all_cons, Bool.and_eq_true] at hb
    rcases hM (c :: cs) (by simp [List.all_cons, hb.1, hb.2]) with hn | ⟨em, hs⟩
    · have h1 : M (c :: (cs ++ '>' :: R)) = none := by
        have := hn R
        simpa using this
      have h2 : M (c :: (cs ++ ['>'])) = none := by
        have := hn []
        simpa using this
      rw [List.cons_append, scanSub_skip h1, ih hb.2 R, List.cons_append,
        scanSub_skip h2]
      simp
    · rw [scanSub_match' hreg (hs R), scanSub_match' hreg (hs []),
        scanSub_nil, List.append_nil]

theorem scanSub_tryDim_ex (w : List Char) (hw : ∀ p ∈ w, lowerChar p ≠ '>') :
    ∀ b : List Char, b.all (fun c => c != '>') = true →
      ∃ b', scanSub (tryDim w) (b ++ ['>']) = b' ++ ['>']
        ∧ b'.all (fun c => c != '>') = true
        ∧ (b'.head? = b.head? ∨ b'.head? = some '<') := by
  intro b
  induction b with
  | nil =>
    intro _
    rcases tryDim_gt w hw (b := []) (by decide) with hn | ⟨e, he, hh, hbh, hs⟩
    · refine ⟨[], ?_, by decide, Or.inl rfl⟩
      have h2 : tryDim w ('>' :: ([] : List Char)) = none := by simpa using hn []
      rw [List.nil_append, scanSub_skip h2, scanSub_nil]
    · exact absurd hbh (by simp)
  | cons c cs ih =>
    intro hb
    simp only [List.all_cons, Bool.and_eq_true] at hb
    rcases tryDim_gt w hw (b := c :: cs)
        (by simp [List.all_cons, hb.1, hb.2]) with hn | ⟨e, he, hh, hbh, hs⟩
    · have h2 : tryDim w (c :: (cs ++ ['>'])) = none := by
        have := hn []
        simpa using this
      obtain ⟨b₁, hb₁eq, hb₁all, hb₁h⟩ := ih hb.2
      refine ⟨c :: b₁, ?_, by simp [List.all_cons, hb.1, hb₁all], Or.inl rfl⟩
      rw [List.cons_append, scanSub_skip h2, hb₁eq, List.cons_append]
    · refine ⟨e, ?_, he, Or.inr hh⟩
      rw [show (c :: cs) ++ ['>'] = (c :: cs) ++ '>' :: ([] : List Char) from rfl,
        scanSub_match' (tryDim_regressive w) (hs []), scanSub_nil,
        List.append_nil]

theorem tagBody_spec (w : List Char) (hw : ∀ p ∈ w, lowerChar p ≠ '>')
    {b : List Char} (hb : b.all (fun c => c != '>') = true) :
    scanSub (tryDim w) (b ++ ['>']) = tagBody (tryDim w) b ++ ['>']
    ∧ (tagBody (tryDim w) b).all (fun c => c != '>') = true
    ∧ (b.head? = some '<' → (tagBody (tryDim w) b).head? = some '<') := by
  obtain ⟨b', heq, hall, hh⟩ := scanSub_tryDim_ex w hw b hb
  have htb : tagBody (tryDim w) b = b' := by
    unfold tagBody
    rw [heq, List.dropLast_concat]
  refine ⟨by rw [htb]; exact heq, by rw [htb]; exact hall, ?_⟩
  intro hbh
  rw [htb]
  rcases hh with h | h
  · rw [h, hbh]
  · exact h

theorem scanSub_decomp {M : List Char → Option (List Char × List Char)}
    (hreg : Regressive M)
    (hgate : ∀ t, ciDrop (("<img").toList) t = none → M t = none)
    (hM : GtLocal M) :
    ∀ (L : List (List Char × List Char)) (tl : List Char),
      (∀ p ∈ L, hasImgTagCi p.1 = false) →
      (∀ p ∈ L, p.2.head? = some '<' ∧ p.2.all (fun c => c != '>') = true) →
      hasImgTagCi tl = false →
      scanSub M ((L.map (fun p => p.1 ++ (p.2 ++ ['>']))).flatten ++ tl)
        = (L.map (fun p => p.1 ++ scanSub M (p.2 ++ ['>']))).flatten ++ tl := by
  have hci_of : ∀ (H : List Char), hasImgTagCi H = false →
      ∀ t, t <:+ H → ciDrop (("<img").toList) t = none := by
    intro H hH t ht
    unfold hasImgTagCi at hH
    rw [List.any_eq_false] at hH
    have h₂ := hH t ((List.mem_tails _ _).mpr ht)
    cases hcd : ciDrop (("<img").toList) t with
    | none => rfl
    | some r => rw [hcd] at h₂; simp at h₂
  intro L
  induction L with
  | nil =>
    intro tl _ _ htl
    simp only [List.map_nil, List.flatten_nil, List.nil_append]
    exact scanSub_id (fun t ht => hgate t (hci_of tl htl t ht))
  | cons p L' ih =>
    intro tl hIn hTg htl
    obtain ⟨a, b⟩ := p
    have hIa : hasImgTagCi a = false := hIn (a, b) (List.mem_cons_self _ _)
    obtain ⟨hbh, hball⟩ := hTg (a, b) (List.mem_cons_self _ _)
    have hXh : ∀ Y : List Char, ((b ++ ['>']) ++ Y).head? = some '<' := by
      intro Y
      cases b with
      | nil => simp at hbh
      | cons b0 bs =>
        simp only [List.head?_cons, Option.some.injEq] at hbh
        simp [List.cons_append, List.head?_cons, hbh]
    have hnone_a : ∀ t, t ≠ [] →
        t <:+ a → M (t ++ ((b ++ ['>']) ++ ((L'.map
          (fun p => p.1 ++ (p.2 ++ ['>']))).flatten ++ tl))) = none := by
      intro t htne hta
      apply hgate
      by_cases h4 : 4 ≤ t.length
      · have hta' : ciDrop (("<img").toList) t = none :=
          hci_of a hIa t hta
        rw [ciDrop_append_of_le
          (by rw [show (("<img").toList).length = 4 from rfl]; exact h4), hta']
        rfl
      · exact ciDrop_img_none_short htne (by omega) (hXh _)
    rw [List.map_cons, List.flatten_cons, List.append_assoc, List.append_assoc,
      scanSub_append hnone_a,
      show (b ++ ['>']) ++ ((L'.map (fun p => p.1 ++ (p.2 ++ ['>']))).flatten
          ++ tl)
        = b ++ '>' :: ((L'.map (fun p => p.1 ++ (p.2 ++ ['>']))).flatten ++ tl)
        from by simp,
      scanSub_gtLocal hreg hM b hball _,
      ih tl (fun q hq => hIn q (List.mem_cons_of_mem _ hq))
        (fun q hq => hTg q (List.mem_cons_of_mem _ hq)) htl,
      List.map_cons, List.flatten_cons]
    simp [List.append_assoc]

/-- C7: frame property of `clean_image_dimensions` over arbitrary HTML.
First conjunct: the function is the identity on any text containing no
case-insensitive `<img` occurrence (the trigger of all three of its
patterns), so it alters neither other tags nor width/height-like text
elsewhere.  Second conjunct (general decomposition): write any input as
inert chunks `p.1` (each free of `<img` occurrences) alternating with tag
windows `p.2 ++ ['>']` (a chunk starting with `<` whose only `>` is the
final one — exactly the window a match of any of the three patterns can
span, since every match starts at `<img` and all groups stop at the first
`>`), followed by a trailing inert chunk.  Then the function rewrites each
tag window independently — exactly as it rewrites that window standing
alone — and every character of every inert chunk is emitted byte-for-byte
unchanged. -/
theorem clean_image_dimensions_frame :
    (∀ H : List Char, hasImgTagCi H = false → clean_image_dimensions H = H)
    ∧ (∀ (L : List (List Char × List Char)) (tl : List Char),
        (∀ p ∈ L, hasImgTagCi p.1 = false) →
        (∀ p ∈ L, p.2.head? = some '<' ∧ p.2.all (fun c => c != '>') = true) →
        hasImgTagCi tl = false →
        clean_image_dimensions
            ((L.map (fun p => p.1 ++ (p.2 ++ ['>']))).flatten ++ tl)
          = (L.map (fun p => p.1 ++ clean_image_dimensions (p.2 ++ ['>']))).flatten
            ++ tl) := by
  have hnone : ∀ H : List Char, hasImgTagCi H = false →
      ∀ t, t <:+ H → ciDrop (("<img").toList) t = none := by
    intro H hH t ht
    unfold hasImgTagCi at hH
    rw [List.any_eq_false] at hH
    have h₂ := hH t ((List.mem_tails _ _).mpr ht)
    cases hcd : ciDrop (("<img").toList) t with
    | none => rfl
    | some r => rw [hcd] at h₂; simp at h₂
  have hwW : ∀ p ∈ (("width").toList), lowerChar p ≠ '>' := by decide
  have hwH : ∀ p ∈ (("height").toList), lowerChar p ≠ '>' := by decide
  constructor
  · intro H hH
    show scanSub tryImgTag (scanSub (tryDim (("height").toList))
      (scanSub (tryDim (("width").toList)) H)) = H
    rw [scanSub_id (fun t ht => tryDim_none_of_no_img (hnone H hH t ht))]
    rw [scanSub_id (fun t ht => tryDim_none_of_no_img (hnone H hH t ht))]
    rw [scanSub_id (fun t ht => tryImgTag_none_of_no_img (hnone H hH t ht))]
  · intro L tl hIn hTg htl
    show scanSub tryImgTag (scanSub (tryDim (("height").toList))
      (scanSub (tryDim (("width").toList)) _)) = _
    rw [scanSub_decomp (tryDim_regressive _) (fun t h => tryDim_none_of_no_img h)
      (tryDim_gtLocal _ hwW) L tl hIn hTg htl]
    have hmap1 : L.map (fun p => p.1 ++ scanSub (tryDim (("width").toList))
          (p.2 ++ ['>']))
        = (L.map (fun p => (p.1, tagBody (tryDim (("width").toList)) p.2))).map
            (fun p => p.1 ++ (p.2 ++ ['>'])) := by
      rw [List.map_map]
      refine List.map_congr_left (fun p hp => ?_)
      show p.1 ++ scanSub (tryDim (("width").toList)) (p.2 ++ ['>'])
        = p.1 ++ (tagBody (tryDim (("width").toList)) p.2 ++ ['>'])
      rw [(tagBody_spec (("width").toList) hwW (hTg p hp).2).1]
    have hIn1 : ∀ p ∈ L.map (fun p =>
        (p.1, tagBody (tryDim (("width").toList)) p.2)),
        hasImgTagCi p.1 = false := by
      intro q hq
      rcases List.mem_map.mp hq with ⟨x, hx, rfl⟩
      exact hIn x hx
    have hTg1 : ∀ p ∈ L.map (fun p =>
        (p.1, tagBody (tryDim (("width").toList)) p.2)),
        p.2.head? = some '<' ∧ p.2.all (fun c => c != '>') = true := by
      intro q hq
      rcases List.mem_map.mp hq with ⟨x, hx, rfl⟩
      have h := tagBody_spec (("width").toList) hwW (hTg x hx).2
      exact ⟨h.2.2 (hTg x hx).1, h.2.1⟩
    rw [hmap1, scanSub_decomp (tryDim_regressive _)
      (fun t h => tryDim_none_of_no_img h) (tryDim_gtLocal _ hwH) _ tl
      hIn1 hTg1 htl]
    have hmap2 : (L.map (fun p =>
          (p.1, tagBody (tryDim (("width").toList)) p.2))).map
          (fun p => p.1 ++ scanSub (tryDim (("height").toList)) (p.2 ++ ['>']))
        = ((L.map (fun p => (p.1, tagBody (tryDim (("width").toList)) p.2))).map
            (fun p => (p.1, tagBody (tryDim (("height").toList)) p.2))).map
            (fun p => p.1 ++ (p.2 ++ ['>'])) := by
      simp only [List.map_map]
      refine List.map_congr_left (fun p hp => ?_)
      show p.1 ++ scanSub (tryDim (("height").toList))
          (tagBody (tryDim (("width").toList)) p.2 ++ ['>'])
        = p.1 ++ (tagBody (tryDim (("height").toList))
            (tagBody (tryDim (("width").toList)) p.2) ++ ['>'])
      have h1 := tagBody_spec (("width").toList) hwW (hTg p hp).2
      rw [(tagBody_spec (("height").toList) hwH h1.2.1).1]
    have hIn2 : ∀ p ∈ (L.map (fun p =>
        (p.1, tagBody (tryDim (("width").toList)) p.2))).map
        (fun p => (p.1, tagBody (tryDim (("height").toList)) p.2)),
        hasImgTagCi p.1 = false := by
      intro q hq
      rcases List.mem_map.mp hq with ⟨x, hx, rfl⟩
      exact hIn1 x hx
    have hTg2 : ∀ p ∈ (L.map (fun p =>
        (p.1, tagBody (tryDim (("width").toList)) p.2))).map
        (fun p => (p.1, tagBody (tryDim (("height").toList)) p.2)),
        p.2.head? = some '<' ∧ p.2.all (fun c => c != '>') = true := by
      intro q hq
      rcases List.mem_map.mp hq with ⟨x, hx, rfl⟩
      have h := tagBody_spec (("height").toList) hwH (hTg1 x hx).2
      exact ⟨h.2.2 (hTg1 x hx).1, h.2.1⟩
    rw [hmap2, scanSub_decomp tryImgTag_regressive
      (fun t h => tryImgTag_none_of_no_img h) tryImgTag_gtLocal _ tl
      hIn2 hTg2 htl]
    congr 1
    simp only [List.map_map]
    refine congrArg List.flatten (List.map_congr_left (fun p hp => ?_))
    show p.1 ++ scanSub tryImgTag
        ((tagBody (tryDim (("height").toList))
          (tagBody (tryDim (("width").toList)) p.2)) ++ ['>'])
      = p.1 ++ clean_image_dimensions (p.2 ++ ['>'])
    have h1 := tagBody_spec (("width").toList) hwW (hTg p hp).2
    have h2 := tagBody_spec (("height").toList) hwH h1.2.1
    rw [show clean_image_dimensions (p.2 ++ ['>'])
        = scanSub tryImgTag (scanSub (tryDim (("height").toList))
          (scanSub (tryDim (("width").toList)) (p.2 ++ ['>']))) from rfl,
      h1.1, h2.1]

/-- Witness for C7 at a concrete decomposition: on
`text <p width=9><img width=1 alt=x> tail` the function rewrites only the
`<img ...>` window and keeps every other character byte-for-byte; and it is
the identity on `<p width=5>ok`. -/
theorem clean_image_dimensions_frame_witness :
    clean_image_dimensions (("<p width=5>ok").toList) = ("<p width=5>ok").toList
    ∧ clean_image_dimensions
        (([((("text <p width=9>").toList),
            (("<img width=1 alt=x").toList))].map
          (fun p => p.1 ++ (p.2 ++ ['>']))).flatten ++ ((" tail").toList))
      = ([((("text <p width=9>").toList),
            (("<img width=1 alt=x").toList))].map
          (fun p => p.1 ++ clean_image_dimensions (p.2 ++ ['>']))).flatten
        ++ ((" tail").toList) := by
  constructor
  · exact clean_image_dimensions_frame.1 _ (by decide)
  · exact clean_image_dimensions_frame.2
      [((("text <p width=9>").toList), (("<img width=1 alt=x").toList))]
      ((" tail").toList) (by decide) (by decide) (by decide)

/-- C6: `clean_image_dimensions` is not idempotent.  On the failing input
`<img width="5" width="6">` one application removes only the first width
attribute (the lazy groups of the pattern make the second width attribute
part of group 3, which the replacement keeps), leaving
`<img width="6">`; a second application removes the remaining attribute,
so applying the function twice differs from applying it once — contradicting
both the claimed idempotency and the function's stated purpose of removing
hardcoded width/height from `<img>` tags. -/
theorem clean_image_dimensions_not_idempotent :
    clean_image_dimensions (clean_image_dimensions
        (("<img width=\"5\" width=\"6\">").toList))
      ≠ clean_image_dimensions (("<img width=\"5\" width=\"6\">").toList)
    ∧ clean_image_dimensions (("<img width=\"5\" width=\"6\">").toList)
        = ("<img width=\"6\">").toList
    ∧ clean_image_dimensions (("<img width=\"6\">").toList)
        = ("<img>").toList := by
  decide

theorem ciDrop_cons_ci {p c : Char} {ps cs : List Char}
    (h : lowerChar c = lowerChar p) :
    ciDrop (p :: ps) (c :: cs) = ciDrop ps cs := by
  simp [ciDrop, h]

theorem tryCid_regressive (attr : List Char)
    (images : List (List Char × List Char)) :
    Regressive (tryCid attr images) := by
  intro l em rest h
  simp only [tryCid] at h
  split at h
  · cases h
  next l₁ h₁ =>
    have hl₁ : l₁.length + (attr.length + 1) = l.length := by
      have := ciDrop_length h₁
      simpa using this
    split at h
    · cases h
    next l₃ h₂ =>
      have hoq := optQuote_length l₁
      have hl₃ : l₃.length + 4 = (optQuote l₁).length := by
        have := ciDrop_length h₂
        simpa using this
      split at h
      · cases h
      next hcid =>
        simp only [Option.some.injEq, Prod.mk.injEq] at h
        have h₄ : rest = optQuote (l₃.drop (l₃.takeWhile cidAllowed).length) :=
          h.2.symm
        have hto := optQuote_length (l₃.drop (l₃.takeWhile cidAllowed).length)
        have hdl : (l₃.drop (l₃.takeWhile cidAllowed).length).length ≤ l₃.length := by
          rw [List.length_drop]
          omega
        rw [h₄]
        omega

/-- Evaluation of the CID matcher on a quoted attribute occurrence:
`AT=q cid:ID q REST` (with `AT`/`cid` matched case-insensitively and `q` a
quote) matches, captures `ID`, and emits the resolved replacement or the
original text. -/
theorem tryCid_eval (attr at' cidTxt id rest : List Char) (q : Char)
    (images : List (List Char × List Char))
    (hat : ∀ X : List Char, ciDrop (attr ++ ['=']) (at' ++ X) = some X)
    (hcid : ∀ X : List Char, ciDrop (("cid:").toList) (cidTxt ++ X) = some X)
    (hq : q = '"' ∨ q = '\'')
    (hid : id ≠ []) (hallowed : ∀ c ∈ id, cidAllowed c = true) :
    tryCid attr images (at' ++ (q :: (cidTxt ++ (id ++ (q :: rest)))))
      = some ((match dlookup images ((("cid:").toList) ++ id) with
          | some uri => attr ++ '=' :: '"' :: (uri ++ ['"'])
          | none =>
            (match dlookup images id with
            | some uri => attr ++ '=' :: '"' :: (uri ++ ['"'])
            | none => at' ++ (q :: (cidTxt ++ (id ++ [q]))))), rest) := by
  have hoq : optQuote (q :: (cidTxt ++ (id ++ (q :: rest))))
      = cidTxt ++ (id ++ (q :: rest)) := by
    simp only [optQuote]
    rw [if_pos hq]
  have hqa : cidAllowed q = false := by
    rcases hq with h | h <;> subst h <;> decide
  have htw : (id ++ (q :: rest)).takeWhile cidAllowed = id := by
    rw [takeWhile_append_all _ hallowed, List.takeWhile_cons, if_neg (by simp [hqa])]
    simp
  have hdrop : (id ++ (q :: rest)).drop id.length = q :: rest :=
    List.drop_left id (q :: rest)
  have hoq₂ : optQuote (q :: rest) = rest := by
    simp only [optQuote]
    rw [if_pos hq]
  have hshape : at' ++ (q :: (cidTxt ++ (id ++ (q :: rest))))
      = (at' ++ (q :: (cidTxt ++ (id ++ [q])))) ++ rest := by
    simp
  have htake : (at' ++ (q :: (cidTxt ++ (id ++ (q :: rest))))).take
      ((at' ++ (q :: (cidTxt ++ (id ++ (q :: rest))))).length - rest.length)
      = at' ++ (q :: (cidTxt ++ (id ++ [q]))) := by
    rw [hshape]
    have : ((at' ++ (q :: (cidTxt ++ (id ++ [q])))) ++ rest).length - rest.length
        = (at' ++ (q :: (cidTxt ++ (id ++ [q])))).length := by
      simp [List.length_append]
      omega
    rw [this]
    exact List.take_left _ _
  simp only [tryCid, hat, hoq, hcid, htw, if_neg hid, hdrop, hoq₂, htake]

/-- Evaluation of the CID matcher on an unquoted attribute occurrence
`AT=cid:ID REST`, where `REST` is empty or starts with a character that can
neither extend the greedy id capture (`[^"\'\s>]+`) nor be taken by the
trailing optional quote. -/
theorem tryCid_eval_unquoted (attr at' cidTxt id rest : List Char)
    (images : List (List Char × List Char))
    (hat : ∀ X : List Char, ciDrop (attr ++ ['=']) (at' ++ X) = some X)
    (hcid : ∀ X : List Char, ciDrop (("cid:").toList) (cidTxt ++ X) = some X)
    (hid : id ≠ []) (hallowed : ∀ c ∈ id, cidAllowed c = true)
    (hbound : ∀ c, rest.head? = some c →
      cidAllowed c = false ∧ c ≠ '"' ∧ c ≠ '\'') :
    tryCid attr images (at' ++ (cidTxt ++ (id ++ rest)))
      = some ((match dlookup images ((("cid:").toList) ++ id) with
          | some uri => attr ++ '=' :: '"' :: (uri ++ ['"'])
          | none =>
            (match dlookup images id with
            | some uri => attr ++ '=' :: '"' :: (uri ++ ['"'])
            | none => at' ++ (cidTxt ++ id))), rest) := by
  obtain ⟨x, xs, rfl, hxq⟩ :
      ∃ x xs, cidTxt = x :: xs ∧ ¬ (x = '"' ∨ x = '\'') := by
    have h0 : ciDrop (("cid:").toList) cidTxt = some [] := by
      have := hcid []
      simpa using this
    cases cidTxt with
    | nil => exact absurd h0 (by simp [ciDrop])
    | cons x xs =>
      refine ⟨x, xs, rfl, ?_⟩
      simp only [show ("cid:").toList = 'c' :: 'i' :: 'd' :: ':' :: [] from rfl,
        ciDrop] at h0
      split at h0
      next hx =>
        intro hor
        rcases hor with h | h <;> (subst h; revert hx; decide)
      next => exact absurd h0 (by simp)
  have hoqPre : optQuote ((x :: xs) ++ (id ++ rest))
      = (x :: xs) ++ (id ++ rest) := by
    simp only [List.cons_append, optQuote]
    rw [if_neg hxq]
  have htw : (id ++ rest).takeWhile cidAllowed = id := by
    rw [takeWhile_append_all rest hallowed]
    cases rest with
    | nil => simp
    | cons r rs =>
      have hr := (hbound r rfl).1
      rw [List.takeWhile_cons, hr]
      simp
  have hdrop : (id ++ rest).drop id.length = rest := List.drop_left id rest
  have hoq₂ : optQuote rest = rest := by
    cases rest with
    | nil => rfl
    | cons r rs =>
      have h := hbound r rfl
      simp only [optQuote]
      rw [if_neg]
      rintro (h1 | h1)
      · exact h.2.1 h1
      · exact h.2.2 h1
  have hshape : at' ++ ((x :: xs) ++ (id ++ rest))
      = (at' ++ ((x :: xs) ++ id)) ++ rest := by simp
  have htake : (at' ++ ((x :: xs) ++ (id ++ rest))).take
      ((at' ++ ((x :: xs) ++ (id ++ rest))).length - rest.length)
      = at' ++ ((x :: xs) ++ id) := by
    rw [hshape]
    have hl : ((at' ++ ((x :: xs) ++ id)) ++ rest).length - rest.length
        = (at' ++ ((x :: xs) ++ id)).length := by
      simp only [List.length_append, List.length_cons]
      omega
    rw [hl]
    exact List.take_left _ _
  simp only [tryCid, hat, hoqPre, hcid, htw, if_neg hid, hdrop, hoq₂, htake]

theorem ciDrop_of_map_lower {u pat : List Char}
    (h : u.map lowerChar = pat.map lowerChar) :
    ∀ X : List Char, ciDrop pat (u ++ X) = some X := by
  induction pat generalizing u with
  | nil =>
    cases u with
    | nil => intro X; rfl
    | cons c cs => simp at h
  | cons p ps ih =>
    cases u with
    | nil => simp at h
    | cons c cs =>
      simp only [List.map_cons, List.cons.injEq] at h
      intro X
      rw [List.cons_append]
      simp only [ciDrop, if_pos h.1]
      exact ih h.2 X

theorem concatSegs_cons (s : CidSeg) (rest : List CidSeg) :
    concatSegs (s :: rest) = segText s ++ concatSegs rest := by
  simp [concatSegs]

theorem segWf_occ_parts {k at' ct cid : List Char} {q : Option Char}
    (h : segWf (CidSeg.occ k at' ct cid q) = true) :
    at'.map lowerChar = k ++ ['='] ∧ ct.map lowerChar = ("cid:").toList
    ∧ cid ≠ [] ∧ (∀ c ∈ cid, cidAllowed c = true)
    ∧ (∀ qc, q = some qc → qc = '"' ∨ qc = '\'') := by
  simp only [segWf, Bool.and_eq_true, beq_iff_eq] at h
  obtain ⟨⟨⟨⟨⟨hk, hat⟩, hct⟩, hcid⟩, hall⟩, hq⟩ := h
  refine ⟨hat, hct, ?_, List.all_eq_true.mp hall, ?_⟩
  · intro he
    subst he
    simp at hcid
  · intro qc hqc
    subst hqc
    have hq' : (qc == '"' || qc == '\'') = true := hq
    simp only [Bool.or_eq_true, beq_iff_eq] at hq'
    exact hq'

theorem segWf_rwSeg (images : List (List Char × List Char)) (a : List Char)
    (s : CidSeg) (h : segWf s = true) : segWf (rwSeg images a s) = true := by
  cases s with
  | lit s => exact h
  | occ k at' ct cid q =>
    simp only [rwSeg]
    split
    · split
      · rfl
      · exact h
    · exact h

theorem segText_occ_ne {k at' ct cid : List Char} {q : Option Char}
    (h : segWf (CidSeg.occ k at' ct cid q) = true) :
    segText (CidSeg.occ k at' ct cid q) ≠ [] := by
  obtain ⟨hat, -, -, -, -⟩ := segWf_occ_parts h
  have hat' : at' ≠ [] := by
    intro he
    rw [he] at hat
    simp at hat
  cases q with
  | none =>
    simp only [segText]
    intro hx
    exact hat' (List.append_eq_nil.mp hx).1
  | some qc =>
    simp only [segText]
    intro hx
    exact hat' (List.append_eq_nil.mp hx).1

theorem noCidAt_spec {images : List (List Char × List Char)}
    {a s X : List Char} (h : noCidAt images a s X = true) :
    ∀ t, t ≠ [] → t <:+ s → tryCid a images (t ++ X) = none := by
  intro t htne hts
  have ht := List.all_eq_true.mp h t ((List.mem_tails _ _).mpr hts)
  simp only [Bool.or_eq_true] at ht
  rcases ht with he | hn
  · cases t with
    | nil => exact absurd rfl htne
    | cons c cs => simp at he
  · exact Option.isNone_iff_eq_none.mp hn

theorem concatSegs_map_nil (images : List (List Char × List Char))
    (a : List Char) :
    ∀ L : List CidSeg, (∀ s ∈ L, segWf s = true) → concatSegs L = [] →
      concatSegs (L.map (rwSeg images a)) = [] := by
  intro L
  induction L with
  | nil => intro _ _; rfl
  | cons sg rest ih =>
    intro hwf hnil
    rw [concatSegs_cons] at hnil
    obtain ⟨hh1, hh2⟩ := List.append_eq_nil.mp hnil
    cases sg with
    | lit s =>
      have hs : s = [] := hh1
      simp only [List.map_cons, concatSegs_cons, rwSeg, segText]
      rw [hs, ih (fun t ht => hwf t (List.mem_cons_of_mem _ ht)) hh2]
      rfl
    | occ k at' ct cid q =>
      exact absurd hh1 (segText_occ_ne (hwf _ (List.mem_cons_self _ _)))

/-- One `re.sub` pass of `replace_cid_references` (the pattern of attribute
`a` with the source's `replace_match` replacement) maps the text of a
well-formed, pass-clean segment list to the text of the list with every
occurrence of kind `a` rewritten through `rwSeg`: resolved ids become
`a="<uri>"`, unresolved occurrences are emitted byte-for-byte unchanged,
and every other segment is copied verbatim. -/
theorem scanPass (images : List (List Char × List Char)) (a : List Char)
    (hA : (a ++ ['=']).map lowerChar = a ++ ['=']) :
    ∀ L : List CidSeg, (∀ s ∈ L, segWf s = true) →
      passClean images a L = true →
      scanSub (tryCid a images) (concatSegs L)
        = concatSegs (L.map (rwSeg images a)) := by
  intro L
  induction L with
  | nil => intro _ _; rfl
  | cons sg rest ih =>
    intro hwf hcl
    have hwfr : ∀ s ∈ rest, segWf s = true :=
      fun s hs => hwf s (List.mem_cons_of_mem _ hs)
    cases sg with
    | lit s =>
      simp only [passClean, Bool.and_eq_true] at hcl
      rw [concatSegs_cons, List.map_cons, concatSegs_cons]
      simp only [segText, rwSeg]
      rw [scanSub_append (noCidAt_spec hcl.1), ih hwfr hcl.2]
    | occ k at' ct cid q =>
      have hw := hwf _ (List.mem_cons_self _ _)
      obtain ⟨hat, hct, hcidne, hall, hq⟩ := segWf_occ_parts hw
      by_cases hk : k = a
      · subst hk
        have hatC : ∀ X : List Char, ciDrop (k ++ ['=']) (at' ++ X) = some X :=
          ciDrop_of_map_lower (by rw [hat, hA])
        have hctC : ∀ X : List Char,
            ciDrop (("cid:").toList) (ct ++ X) = some X :=
          ciDrop_of_map_lower (by rw [hct]; decide)
        cases q with
        | some qc =>
          simp only [passClean, if_pos rfl, Bool.and_eq_true] at hcl
          have hqc := hq qc rfl
          have hm := tryCid_eval k at' ct cid (concatSegs rest) qc images
            hatC hctC hqc hcidne hall
          have hsh : concatSegs (CidSeg.occ k at' ct cid (some qc) :: rest)
              = at' ++ (qc :: (ct ++ (cid ++ (qc :: concatSegs rest)))) := by
            rw [concatSegs_cons]
            simp [segText]
          rw [hsh, scanSub_match' (tryCid_regressive k images) hm,
            ih hwfr hcl.2, List.map_cons, concatSegs_cons]
          congr 1
          simp only [rwSeg, if_pos rfl, cidResolve]
          cases hres : dlookup images ((("cid:").toList) ++ cid) with
          | some uri => simp [segText]
          | none =>
            cases hres2 : dlookup images cid with
            | some uri => simp [segText]
            | none => simp [segText]
        | none =>
          simp only [passClean, if_pos rfl, Bool.and_eq_true] at hcl
          have hbound : ∀ c, (concatSegs rest).head? = some c →
              cidAllowed c = false ∧ c ≠ '"' ∧ c ≠ '\'' := by
            intro c hc
            have hb' : ((!(cidAllowed c)) && (!(c == '"'))
                && (!(c == '\''))) = true := by
              have hb := hcl.1
              unfold boundaryOk at hb
              rw [hc] at hb
              exact hb
            simp only [Bool.and_eq_true, Bool.not_eq_true'] at hb'
            refine ⟨hb'.1.1, ?_, ?_⟩
            · intro he
              subst he
              simp at hb'
            · intro he
              subst he
              simp at hb'
          have hm := tryCid_eval_unquoted k at' ct cid (concatSegs rest) images
            hatC hctC hcidne hall hbound
          have hsh : concatSegs (CidSeg.occ k at' ct cid none :: rest)
              = at' ++ (ct ++ (cid ++ concatSegs rest)) := by
            rw [concatSegs_cons]
            simp [segText]
          rw [hsh, scanSub_match' (tryCid_regressive k images) hm,
            ih hwfr hcl.2, List.map_cons, concatSegs_cons]
          congr 1
          simp only [rwSeg, if_pos rfl, cidResolve]
          cases hres : dlookup images ((("cid:").toList) ++ cid) with
          | some uri => simp [segText]
          | none =>
            cases hres2 : dlookup images cid with
            | some uri => simp [segText]
            | none => simp [segText]
      · simp only [passClean, if_neg hk, Bool.and_eq_true] at hcl
        rw [concatSegs_cons, scanSub_append (noCidAt_spec hcl.1), ih hwfr hcl.2,
          List.map_cons, concatSegs_cons]
        simp [rwSeg, hk]

/-- C2: `replace_cid_references` on an arbitrary HTML string, given by any
decomposition into literal chunks and `src`/`href`/`background`
CID-attribute occurrences (attribute and `cid:` matched case-insensitively;
values quoted, single-quoted or unquoted): the three passes run in the
source's order (`src`, then `href`, then `background`), and each pass
rewrites exactly its occurrences — an occurrence whose referenced id is in
the image index (looked up first with the `cid:` prefix, then bare) becomes
`attr="<data uri>"`, and an occurrence whose id is absent from the index is
emitted byte-for-byte unchanged (`rwSeg`).  Afterwards the result is
dimension-cleaned unless `preserve_dimensions` is set, exactly as in the
source.  The `passClean` hypotheses delimit the decomposition: no pattern
fires inside a literal chunk or an occurrence of another kind, and unquoted
occurrences are properly terminated. -/
theorem replace_cid_references_spec
    (images : List (List Char × List Char)) (L : List CidSeg) (pd : Bool)
    (himg : images ≠ [])
    (hwf : ∀ s ∈ L, segWf s = true)
    (h1 : passClean images (("src").toList) L = true)
    (h2 : passClean images (("href").toList)
      (L.map (rwSeg images (("src").toList))) = true)
    (h3 : passClean images (("background").toList)
      ((L.map (rwSeg images (("src").toList))).map
        (rwSeg images (("href").toList))) = true) :
    replace_cid_references (concatSegs L) images pd
      = (if pd then
          concatSegs (((L.map (rwSeg images (("src").toList))).map
            (rwSeg images (("href").toList))).map
            (rwSeg images (("background").toList)))
        else
          clean_image_dimensions
            (concatSegs (((L.map (rwSeg images (("src").toList))).map
              (rwSeg images (("href").toList))).map
              (rwSeg images (("background").toList))))) := by
  have hwf1 : ∀ s ∈ L.map (rwSeg images (("src").toList)),
      segWf s = true := by
    intro s hs
    rcases List.mem_map.mp hs with ⟨y, hy, rfl⟩
    exact segWf_rwSeg _ _ _ (hwf y hy)
  have hwf2 : ∀ s ∈ (L.map (rwSeg images (("src").toList))).map
      (rwSeg images (("href").toList)), segWf s = true := by
    intro s hs
    rcases List.mem_map.mp hs with ⟨y, hy, rfl⟩
    exact segWf_rwSeg _ _ _ (hwf1 y hy)
  by_cases hnil : concatSegs L = []
  · have hn1 : concatSegs (L.map (rwSeg images (("src").toList))) = [] :=
      concatSegs_map_nil _ _ L hwf hnil
    have hn2 : concatSegs ((L.map (rwSeg images (("src").toList))).map
        (rwSeg images (("href").toList))) = [] :=
      concatSegs_map_nil _ _ _ hwf1 hn1
    have hn3 : concatSegs (((L.map (rwSeg images (("src").toList))).map
        (rwSeg images (("href").toList))).map
        (rwSeg images (("background").toList))) = [] :=
      concatSegs_map_nil _ _ _ hwf2 hn2
    rw [hnil, hn3]
    unfold replace_cid_references
    rw [if_pos (Or.inl rfl)]
    cases pd with
    | false =>
      rw [if_neg (by simp)]
      rfl
    | true =>
      rw [if_pos rfl]
  · have e1 := scanPass images (("src").toList) (by decide) L hwf h1
    have e2 := scanPass images (("href").toList) (by decide) _ hwf1 h2
    have e3 := scanPass images (("background").toList) (by decide) _ hwf2 h3
    unfold replace_cid_references
    rw [if_neg (by rw [not_or]; exact ⟨hnil, himg⟩)]
    show (if pd then
        scanSub (tryCid (("background").toList) images)
          (scanSub (tryCid (("href").toList) images)
            (scanSub (tryCid (("src").toList) images) (concatSegs L)))
      else
        clean_image_dimensions
          (scanSub (tryCid (("background").toList) images)
            (scanSub (tryCid (("href").toList) images)
              (scanSub (tryCid (("src").toList) images) (concatSegs L))))) = _
    rw [e1, e2, e3]

/-- Witness for C2 at a concrete index and decomposition: the quoted `src`,
upper-case single-quoted `href` and unquoted `background` occurrences whose
ids resolve are rewritten to their data URIs, and a `src` occurrence with an
unknown id is left byte-for-byte unchanged. -/
theorem replace_cid_references_spec_witness :
    replace_cid_references
        (concatSegs
          [CidSeg.lit (("<p ").toList),
            CidSeg.occ (("src").toList) (("src=").toList) (("cid:").toList)
              (("a").toList) (some '"'),
            CidSeg.lit ((" ").toList),
            CidSeg.occ (("href").toList) (("HREF=").toList) (("CID:").toList)
              (("b").toList) (some '\''),
            CidSeg.lit ((" ").toList),
            CidSeg.occ (("background").toList) (("background=").toList)
              (("cid:").toList) (("a").toList) none,
            CidSeg.lit ((">").toList),
            CidSeg.occ (("src").toList) (("src=").toList) (("cid:").toList)
              (("z").toList) (some '"')])
        [((("cid:a").toList), (("u1").toList)),
          ((("b").toList), (("u2").toList))] true
      = concatSegs
          ((([CidSeg.lit (("<p ").toList),
            CidSeg.occ (("src").toList) (("src=").toList) (("cid:").toList)
              (("a").toList) (some '"'),
            CidSeg.lit ((" ").toList),
            CidSeg.occ (("href").toList) (("HREF=").toList) (("CID:").toList)
              (("b").toList) (some '\''),
            CidSeg.lit ((" ").toList),
            CidSeg.occ (("background").toList) (("background=").toList)
              (("cid:").toList) (("a").toList) none,
            CidSeg.lit ((">").toList),
            CidSeg.occ (("src").toList) (("src=").toList) (("cid:").toList)
              (("z").toList) (some '"')].map
            (rwSeg [((("cid:a").toList), (("u1").toList)),
              ((("b").toList), (("u2").toList))] (("src").toList))).map
            (rwSeg [((("cid:a").toList), (("u1").toList)),
              ((("b").toList), (("u2").toList))] (("href").toList))).map
            (rwSeg [((("cid:a").toList), (("u1").toList)),
              ((("b").toList), (("u2").toList))] (("background").toList))) := by
  have h := replace_cid_references_spec
    [((("cid:a").toList), (("u1").toList)),
      ((("b").toList), (("u2").toList))]
    [CidSeg.lit (("<p ").toList),
      CidSeg.occ (("src").toList) (("src=").toList) (("cid:").toList)
        (("a").toList) (some '"'),
      CidSeg.lit ((" ").toList),
      CidSeg.occ (("href").toList) (("HREF=").toList) (("CID:").toList)
        (("b").toList) (some '\''),
      CidSeg.lit ((" ").toList),
      CidSeg.occ (("background").toList) (("background=").toList)
        (("cid:").toList) (("a").toList) none,
      CidSeg.lit ((">").toList),
      CidSeg.occ (("src").toList) (("src=").toList) (("cid:").toList)
        (("z").toList) (some '"')] true
    (by decide) (by decide) (by decide) (by decide) (by decide)
  simpa using h

/-- The inline-image variant's multipart loop computes, in its first
component, the processed content of the last decodable HTML part (the
accumulator's start value if none), and in its second component the first
non-empty processed plain-text content (the start value if that is already
non-empty). -/
theorem inlineLoop_spec (rules : List (List Char → List Char))
    (images : List (List Char × List Char)) (pd : Bool) (parts : List Part) :
    ∀ hb pb, inlineLoop rules images pd hb pb parts =
      ((parts.filterMap (htmlContent rules images pd)).getLastD hb,
       if pb = [] then
         ((parts.filterMap (plainContent rules)).filter
           (fun c => !c.isEmpty)).headD []
       else pb) := by
  induction parts with
  | nil =>
    intro hb pb
    by_cases hpb : pb = [] <;> simp [inlineLoop, hpb]
  | cons p rest ih =>
    intro hb pb
    by_cases hs : skipInline p = true
    · have hhc : htmlContent rules images pd p = none := by
        simp [htmlContent, hs]
      have hpc : plainContent rules p = none := by
        simp [plainContent, hs]
      simp only [inlineLoop, if_pos hs, List.filterMap_cons, hhc, hpc]
      exact ih hb pb
    · have hs' : skipInline p = false := by simpa using hs
      by_cases hh : p.content_type = ("text/html").toList
      · have hpc : plainContent rules p = none := by
          rw [plainContent, if_neg]
          rw [hh]
          simp
        cases hp : p.payload with
        | some bs =>
          have hhc : htmlContent rules images pd p
              = some (anonymize_content rules
                  (replace_cid_references (decodeUtf8Replace bs) images pd)) := by
            simp [htmlContent, hs', hh, hp]
          simp only [inlineLoop, if_neg hs, if_pos hh, hp, List.filterMap_cons,
            hhc, hpc, List.getLastD_cons]
          exact ih _ pb
        | none =>
          have hhc : htmlContent rules images pd p = none := by
            simp [htmlContent, hs', hh, hp]
          simp only [inlineLoop, if_neg hs, if_pos hh, hp, List.filterMap_cons,
            hhc, hpc]
          exact ih hb pb
      · by_cases hpl : p.content_type = ("text/plain").toList
        · have hhc : htmlContent rules images pd p = none := by
            simp only [htmlContent]
            rw [if_neg (fun hc => hh hc.2)]
          cases hp : p.payload with
          | some bs =>
            have hpc : plainContent rules p
                = some (anonymize_content rules (decodeUtf8Replace bs)) := by
              simp [plainContent, hs', hpl, hp]
            by_cases hpb : pb = []
            · simp only [inlineLoop, if_neg hs, if_neg hh,
                if_pos (And.intro hpl hpb), hp, List.filterMap_cons, hhc, hpc]
              rw [ih hb _]
              by_cases hproc : anonymize_content rules (decodeUtf8Replace bs) = []
              · simp [hproc, hpb]
              · simp [hproc, hpb]
            · simp only [inlineLoop, if_neg hs, if_neg hh,
                if_neg (fun hc => hpb hc.2 :
                  ¬ (p.content_type = ("text/plain").toList ∧ pb = [])),
                List.filterMap_cons, hhc, hpc]
              rw [ih hb pb]
              simp [hpb]
          | none =>
            have hpc : plainContent rules p = none := by
              simp [plainContent, hs', hpl, hp]
            simp only [inlineLoop, if_neg hs, if_neg hh, List.filterMap_cons,
              hhc, hpc]
            by_cases hpb : pb = []
            · simp only [if_pos (And.intro hpl hpb), hp]
              exact ih hb pb
            · simp only [if_neg (fun hc => hpb hc.2 :
                ¬ (p.content_type = ("text/plain").toList ∧ pb = []))]
              exact ih hb pb
        · have hhc : htmlContent rules images pd p = none := by
            simp only [htmlContent]
            rw [if_neg (fun hc => hh hc.2)]
          have hpc : plainContent rules p = none := by
            simp only [plainContent]
            rw [if_neg (fun hc => hpl hc.2)]
          simp only [inlineLoop, if_neg hs, if_neg hh,
            if_neg (fun hc => hpl hc.1 :
              ¬ (p.content_type = ("text/plain").toList ∧ pb = [])),
            List.filterMap_cons, hhc, hpc]
          exact ih hb pb

/-- C3 counterexample: a multipart message with a decodable `text/html`
non-attachment part (whose processed content is empty) and a decodable
`text/plain` part does not return the HTML body: it falls through to the
`<pre>`-wrapped plain text. -/
theorem extract_email_content_inline_html_fallthrough :
    extract_email_content_inline []
        ⟨true, [⟨("text/html").toList, [], [], none, some []⟩,
                ⟨("text/plain").toList, [], [], none, some [104, 105]⟩]⟩ false
      = ("<pre>hi</pre>").toList
    ∧ anonymize_content []
        (replace_cid_references (decodeUtf8Replace [])
          (extract_images_from_email
            [⟨("text/html").toList, [], [], none, some []⟩,
             ⟨("text/plain").toList, [], [], none, some [104, 105]⟩]) false)
      = []
    ∧ ("<pre>hi</pre>").toList ≠ ([] : List Char) := by
  decide

/-- C3 (amended): for every multipart message, the inline-image variant's
`extract_email_content` returns the processed content of the last decodable
non-attachment `text/html` part when that content is non-empty; otherwise
the first decodable `text/plain` part whose processed content is non-empty,
HTML-escaped and wrapped in `<pre>...</pre>`; otherwise exactly the
placeholder `<p>No readable content found</p>`. -/
theorem extract_email_content_inline_multipart
    (rules : List (List Char → List Char)) (m : Message) (pd : Bool)
    (hm : m.multipart = true) :
    extract_email_content_inline rules m pd =
      (let images := extract_images_from_email m.parts
       let hb := (m.parts.filterMap (htmlContent rules images pd)).getLastD []
       let pb := ((m.parts.filterMap (plainContent rules)).filter
         (fun c => !c.isEmpty)).headD []
       if hb ≠ [] then hb
       else if pb ≠ [] then
         ("<pre>").toList ++ escapeHtml pb ++ ("</pre>").toList
       else ("<p>No readable content found</p>").toList) := by
  unfold extract_email_content_inline
  rw [hm, if_pos rfl, inlineLoop_spec, if_pos rfl]

/-- Witness for the amended C3 at a concrete message. -/
theorem extract_email_content_inline_multipart_witness :
    extract_email_content_inline []
        ⟨true, [⟨("text/plain").toList, [], [], none, some [104, 105]⟩]⟩ false
      = (let images := extract_images_from_email
           [⟨("text/plain").toList, [], [], none, some [104, 105]⟩]
         let hb := ([⟨("text/plain").toList, [], [], none,
           some [104, 105]⟩].filterMap (htmlContent [] images false)).getLastD []
         let pb := (([⟨("text/plain").toList, [], [], none,
           some [104, 105]⟩].filterMap (plainContent [])).filter
             (fun c => !c.isEmpty)).headD []
         if hb ≠ [] then hb
         else if pb ≠ [] then
           ("<pre>").toList ++ escapeHtml pb ++ ("</pre>").toList
         else ("<p>No readable content found</p>").toList) :=
  extract_email_content_inline_multipart []
    ⟨true, [⟨("text/plain").toList, [], [], none, some [104, 105]⟩]⟩ false rfl

theorem extract_images_empty (parts : List Part)
    (h : ∀ p ∈ parts, ("image/").toList.isPrefixOf p.content_type = false) :
    extract_images_from_email parts = [] := by
  unfold extract_images_from_email
  have hgen : ∀ d, List.foldl imageStep d parts = d := by
    induction parts with
    | nil => intro d; rfl
    | cons p rest ih =>
      intro d
      rw [List.foldl_cons, show imageStep d p = d from by
        unfold imageStep
        rw [if_neg (fun hc => by
          rw [h p (List.mem_cons_self p rest)] at hc; cases hc)]]
      exact ih (fun q hq => h q (List.mem_cons_of_mem p hq)) d
  exact hgen []

theorem replace_cid_nil (h : List Char) (pd : Bool) :
    replace_cid_references h [] pd = h := by
  unfold replace_cid_references
  rw [if_pos (Or.inr rfl)]

theorem skipInline_false {p : Part}
    (h : containsSub (("attachment").toList) p.content_disposition = false) :
    skipInline p = false := by
  unfold skipInline
  rw [h, Bool.false_and]

theorem inlineLoop_fst_const (rules : List (List Char → List Char))
    (images : List (List Char × List Char)) (pd : Bool) (parts : List Part)
    (hno : ∀ q ∈ parts, q.content_type ≠ ("text/html").toList) :
    ∀ hb pb, (inlineLoop rules images pd hb pb parts).1 = hb := by
  induction parts with
  | nil => intro hb pb; rfl
  | cons p rest ih =>
    intro hb pb
    have hp := hno p (List.mem_cons_self p rest)
    have ih' := ih (fun q hq => hno q (List.mem_cons_of_mem p hq))
    by_cases hs : skipInline p = true
    · simp only [inlineLoop, if_pos hs]
      exact ih' hb pb
    · simp only [inlineLoop, if_neg hs, if_neg hp]
      by_cases hpl : p.content_type = ("text/plain").toList ∧ pb = []
      · rw [if_pos hpl]
        cases hpay : p.payload with
        | some bs => exact ih' hb _
        | none => exact ih' hb pb
      · rw [if_neg hpl]
        exact ih' hb pb

/-- With no attachment parts, at most one HTML part, non-empty processed
content for every decodable text part, at least one decodable text part, and
an empty image index, the multipart loops of the two conversion variants
resolve to the same body. -/
theorem loops_agree (rules : List (List Char → List Char)) (pd : Bool) :
    ∀ (parts : List Part) (pb : List Char),
      (∀ p ∈ parts,
        containsSub (("attachment").toList) p.content_disposition = false) →
      parts.countP (fun p => p.content_type == ("text/html").toList) ≤ 1 →
      (∀ p ∈ parts, (p.content_type = ("text/html").toList ∨
          p.content_type = ("text/plain").toList) →
        (match p.payload with
         | some bs => anonymize_content rules (decodeUtf8Replace bs) ≠ []
         | none => True)) →
      (pb ≠ [] ∨ ∃ p ∈ parts, (p.content_type = ("text/html").toList ∨
          p.content_type = ("text/plain").toList) ∧ p.payload.isSome = true) →
      (if (inlineLoop rules [] pd [] pb parts).1 ≠ [] then
         (inlineLoop rules [] pd [] pb parts).1
       else if (inlineLoop rules [] pd [] pb parts).2 ≠ [] then
         ("<pre>").toList ++ escapeHtml (inlineLoop rules [] pd [] pb parts).2
           ++ ("</pre>").toList
       else ("<p>No readable content found</p>").toList)
      = (textLoop rules (if pb = [] then [] else
          ("<pre>").toList ++ escapeHtml pb ++ ("</pre>").toList) parts).1 := by
  intro parts
  induction parts with
  | nil =>
    intro pb hB hC hD hE
    rcases hE with hpb | ⟨p, hp, _⟩
    · simp only [inlineLoop, textLoop]
      rw [if_neg (by simp : ¬ (([] : List Char) ≠ [])), if_pos hpb, if_neg hpb]
    · exact absurd hp (List.not_mem_nil p)
  | cons p rest ih =>
    intro pb hB hC hD hE
    have hBp := hB p (List.mem_cons_self p rest)
    have hBp' : ¬ (containsSub (("attachment").toList) p.content_disposition
        = true) := by rw [hBp]; exact Bool.false_ne_true
    have hBrest := fun q hq => hB q (List.mem_cons_of_mem p hq)
    have hDrest := fun q hq => hD q (List.mem_cons_of_mem p hq)
    have hs : skipInline p = false := skipInline_false hBp
    have hs' : ¬ skipInline p = true := by rw [hs]; exact Bool.false_ne_true
    have hCrest : rest.countP (fun q => q.content_type == ("text/html").toList)
        ≤ 1 := by
      rw [List.countP_cons] at hC
      omega
    by_cases hh : p.content_type = ("text/html").toList
    · have hpp : (p.content_type == ("text/html").toList) = true := by
        rw [hh]
        exact beq_self_eq_true _
      have hcount : rest.countP
          (fun q => q.content_type == ("text/html").toList) = 0 := by
        rw [List.countP_cons, hpp, if_pos rfl] at hC
        omega
      have hnorest : ∀ q ∈ rest, q.content_type ≠ ("text/html").toList := by
        intro q hq hqh
        have hz := List.countP_eq_zero.mp hcount q hq
        simp [hqh] at hz
      cases hpay : p.payload with
      | some bs =>
        have hc : anonymize_content rules (decodeUtf8Replace bs) ≠ [] := by
          have hd := hD p (List.mem_cons_self p rest) (Or.inl hh)
          rw [hpay] at hd
          exact hd
        have hred : inlineLoop rules [] pd [] pb (p :: rest)
            = inlineLoop rules [] pd
                (anonymize_content rules
                  (replace_cid_references (decodeUtf8Replace bs) [] pd)) pb rest := by
          simp only [inlineLoop, if_neg hs', if_pos hh, hpay]
        have htred : textLoop rules (if pb = [] then [] else
              ("<pre>").toList ++ escapeHtml pb ++ ("</pre>").toList) (p :: rest)
            = (anonymize_content rules (decodeUtf8Replace bs), true) := by
          simp only [textLoop, if_neg hBp', if_pos hh, hpay]
        rw [hred, htred, replace_cid_nil,
          inlineLoop_fst_const rules [] pd rest hnorest _ pb, if_pos hc]
      | none =>
        have hred : inlineLoop rules [] pd [] pb (p :: rest)
            = inlineLoop rules [] pd [] pb rest := by
          simp only [inlineLoop, if_neg hs', if_pos hh, hpay]
        have htred : textLoop rules (if pb = [] then [] else
              ("<pre>").toList ++ escapeHtml pb ++ ("</pre>").toList) (p :: rest)
            = textLoop rules (if pb = [] then [] else
              ("<pre>").toList ++ escapeHtml pb ++ ("</pre>").toList) rest := by
          simp only [textLoop, if_neg hBp', if_pos hh, hpay]
        rw [hred, htred]
        refine ih pb hBrest hCrest hDrest ?_
        rcases hE with hpb | ⟨q, hq, hcond⟩
        · exact Or.inl hpb
        · rcases List.mem_cons.mp hq with rfl | hq'
          · rw [hpay] at hcond
            simp at hcond
          · exact Or.inr ⟨q, hq', hcond⟩
    · by_cases hpl : p.content_type = ("text/plain").toList
      · cases hpay : p.payload with
        | some bs =>
          have hc : anonymize_content rules (decodeUtf8Replace bs) ≠ [] := by
            have hd := hD p (List.mem_cons_self p rest) (Or.inr hpl)
            rw [hpay] at hd
            exact hd
          by_cases hpb : pb = []
          · have hred : inlineLoop rules [] pd [] pb (p :: rest)
                = inlineLoop rules [] pd []
                    (anonymize_content rules (decodeUtf8Replace bs)) rest := by
              simp only [inlineLoop, if_neg hs', if_neg hh]
              rw [if_pos (And.intro hpl hpb)]
              simp only [hpay]
            have htred : textLoop rules (if pb = [] then [] else
                  ("<pre>").toList ++ escapeHtml pb ++ ("</pre>").toList) (p :: rest)
                = textLoop rules (("<pre>").toList ++
                    escapeHtml (anonymize_content rules (decodeUtf8Replace bs)) ++
                    ("</pre>").toList) rest := by
              rw [if_pos hpb]
              simp only [textLoop, if_neg hBp', if_neg hh]
              rw [if_pos (And.intro hpl trivial)]
              simp only [hpay]
            rw [hred, htred]
            have h₂ := ih (anonymize_content rules (decodeUtf8Replace bs))
              hBrest hCrest hDrest (Or.inl hc)
            rw [if_neg hc] at h₂
            exact h₂
          · have hwne : ("<pre>").toList ++ escapeHtml pb ++ ("</pre>").toList
                ≠ [] := by simp
            have hred : inlineLoop rules [] pd [] pb (p :: rest)
                = inlineLoop rules [] pd [] pb rest := by
              simp only [inlineLoop, if_neg hs', if_neg hh]
              rw [if_neg (fun hcnd => hpb hcnd.2 :
                ¬ (p.content_type = ("text/plain").toList ∧ pb = []))]
            have htred : textLoop rules (if pb = [] then [] else
                  ("<pre>").toList ++ escapeHtml pb ++ ("</pre>").toList) (p :: rest)
                = textLoop rules (("<pre>").toList ++ escapeHtml pb ++
                    ("</pre>").toList) rest := by
              rw [if_neg hpb]
              simp only [textLoop, if_neg hBp', if_neg hh]
              rw [if_neg (fun hcnd => hwne hcnd.2 :
                ¬ (p.content_type = ("text/plain").toList ∧
                  ("<pre>").toList ++ escapeHtml pb ++ ("</pre>").toList = []))]
            rw [hred, htred]
            have h₂ := ih pb hBrest hCrest hDrest (Or.inl hpb)
            rw [if_neg hpb] at h₂
            exact h₂
        | none =>
          have hE' : pb ≠ [] ∨ ∃ q ∈ rest,
              (q.content_type = ("text/html").toList ∨
                q.content_type = ("text/plain").toList) ∧
              q.payload.isSome = true := by
            rcases hE with hpb | ⟨q, hq, hcond⟩
            · exact Or.inl hpb
            · rcases List.mem_cons.mp hq with rfl | hq'
              · rw [hpay] at hcond
                simp at hcond
              · exact Or.inr ⟨q, hq', hcond⟩
          by_cases hpb : pb = []
          · have hred : inlineLoop rules [] pd [] pb (p :: rest)
                = inlineLoop rules [] pd [] pb rest := by
              simp only [inlineLoop, if_neg hs', if_neg hh]
              rw [if_pos (And.intro hpl hpb)]
              simp only [hpay]
            have htred : textLoop rules (if pb = [] then [] else
                  ("<pre>").toList ++ escapeHtml pb ++ ("</pre>").toList) (p :: rest)
                = textLoop rules (if pb = [] then [] else
                  ("<pre>").toList ++ escapeHtml pb ++ ("</pre>").toList) rest := by
              rw [if_pos hpb]
              simp only [textLoop, if_neg hBp', if_neg hh]
              rw [if_pos (And.intro hpl trivial)]
              simp only [hpay]
            rw [hred, htred]
            exact ih pb hBrest hCrest hDrest hE'
          · have hwne : ("<pre>").toList ++ escapeHtml pb ++ ("</pre>").toList
                ≠ [] := by simp
            have hred : inlineLoop rules [] pd [] pb (p :: rest)
                = inlineLoop rules [] pd [] pb rest := by
              simp only [inlineLoop, if_neg hs', if_neg hh]
              rw [if_neg (fun hcnd => hpb hcnd.2 :
                ¬ (p.content_type = ("text/plain").toList ∧ pb = []))]
            have htred : textLoop rules (if pb = [] then [] else
                  ("<pre>").toList ++ escapeHtml pb ++ ("</pre>").toList) (p :: rest)
                = textLoop rules (if pb = [] then [] else
                  ("<pre>").toList ++ escapeHtml pb ++ ("</pre>").toList) rest := by
              rw [if_neg hpb]
              simp only [textLoop, if_neg hBp', if_neg hh]
              rw [if_neg (fun hcnd => hwne hcnd.2 :
                ¬ (p.content_type = ("text/plain").toList ∧
                  ("<pre>").toList ++ escapeHtml pb ++ ("</pre>").toList = []))]
            rw [hred, htred]
            exact ih pb hBrest hCrest hDrest hE'
      · have hE' : pb ≠ [] ∨ ∃ q ∈ rest,
            (q.content_type = ("text/html").toList ∨
              q.content_type = ("text/plain").toList) ∧
            q.payload.isSome = true := by
          rcases hE with hpb | ⟨q, hq, hcond⟩
          · exact Or.inl hpb
          · rcases List.mem_cons.mp hq with rfl | hq'
            · rcases hcond.1 with hx | hx
              · exact absurd hx hh
              · exact absurd hx hpl
            · exact Or.inr ⟨q, hq', hcond⟩
        have hred : inlineLoop rules [] pd [] pb (p :: rest)
            = inlineLoop rules [] pd [] pb rest := by
          simp only [inlineLoop, if_neg hs', if_neg hh]
          rw [if_neg (fun hcnd => hpl hcnd.1 :
            ¬ (p.content_type = ("text/plain").toList ∧ pb = []))]
        by_cases hpb : pb = []
        · have htred : textLoop rules (if pb = [] then [] else
                ("<pre>").toList ++ escapeHtml pb ++ ("</pre>").toList) (p :: rest)
              = textLoop rules (if pb = [] then [] else
                ("<pre>").toList ++ escapeHtml pb ++ ("</pre>").toList) rest := by
            rw [if_pos hpb]
            simp only [textLoop, if_neg hBp', if_neg hh]
            rw [if_neg (fun hcnd => hpl hcnd.1 :
              ¬ (p.content_type = ("text/plain").toList ∧ True))]
          rw [hred, htred]
          exact ih pb hBrest hCrest hDrest hE'
        · have htred : textLoop rules (if pb = [] then [] else
                ("<pre>").toList ++ escapeHtml pb ++ ("</pre>").toList) (p :: rest)
              = textLoop rules (if pb = [] then [] else
                ("<pre>").toList ++ escapeHtml pb ++ ("</pre>").toList) rest := by
            rw [if_neg hpb]
            simp only [textLoop, if_neg hBp', if_neg hh]
            rw [if_neg (fun hcnd => hpl hcnd.1 :
              ¬ (p.content_type = ("text/plain").toList ∧
                ("<pre>").toList ++ escapeHtml pb ++ ("</pre>").toList = []))]
          rw [hred, htred]
          exact ih pb hBrest hCrest hDrest hE'

/-- C10 counterexample: the empty multipart message has no image-typed
parts, no attachment parts, and at most one `text/html` part, yet the
inline-image variant produces the placeholder body while the text-only
variant produces the empty string. -/
theorem variants_disagree :
    extract_email_content_inline [] ⟨true, []⟩ false
      ≠ (extract_email_content_text [] ⟨true, []⟩).1 := by
  decide

/-- C10 (amended): for every message with no image-typed parts, no
attachment parts, at most one `text/html` part, in which every decodable
text part has non-empty processed content and at least one decodable text
part exists, the body produced by the inline-image variant's
`extract_email_content` equals the body component of the text-only
variant's. -/
theorem variants_agree (rules : List (List Char → List Char)) (m : Message)
    (pd : Bool)
    (hA : ∀ p ∈ m.parts, ("image/").toList.isPrefixOf p.content_type = false)
    (hB : ∀ p ∈ m.parts,
      containsSub (("attachment").toList) p.content_disposition = false)
    (hC : m.parts.countP (fun p => p.content_type == ("text/html").toList) ≤ 1)
    (hD : ∀ p ∈ m.parts, (p.content_type = ("text/html").toList ∨
        p.content_type = ("text/plain").toList) →
      (match p.payload with
       | some bs => anonymize_content rules (decodeUtf8Replace bs) ≠ []
       | none => True))
    (hE : ∃ p ∈ m.parts, (p.content_type = ("text/html").toList ∨
        p.content_type = ("text/plain").toList) ∧ p.payload.isSome = true) :
    extract_email_content_inline rules m pd
      = (extract_email_content_text rules m).1 := by
  have himg : extract_images_from_email m.parts = [] :=
    extract_images_empty m.parts hA
  unfold extract_email_content_inline extract_email_content_text
  rw [himg]
  cases hmp : m.multipart with
  | true =>
    rw [if_pos rfl, if_pos rfl]
    have h₂ := loops_agree rules pd m.parts [] hB hC hD (Or.inr hE)
    rw [if_pos rfl] at h₂
    exact h₂
  | false =>
    rw [if_neg (by simp), if_neg (by simp)]
    cases hpay : (getSelf m).payload with
    | none => simp only [hpay]
    | some bs =>
      simp only [hpay]
      by_cases hct : (getSelf m).content_type = ("text/html").toList
      · simp only [if_pos hct, replace_cid_nil]
      · simp only [if_neg hct]

/-- Witness for the amended C10 at a concrete message. -/
theorem variants_agree_witness :
    extract_email_content_inline []
        ⟨true, [⟨("text/plain").toList, [], [], none, some [104, 105]⟩]⟩ false
      = (extract_email_content_text []
        ⟨true, [⟨("text/plain").toList, [], [], none, some [104, 105]⟩]⟩).1 :=
  variants_agree []
    ⟨true, [⟨("text/plain").toList, [], [], none, some [104, 105]⟩]⟩ false
    (by decide) (by decide) (by decide)
    (by
      intro p hp hor
      rcases List.mem_cons.mp hp with rfl | h
      · decide
      · cases h)
    (by decide)

end EmlSpec
